import Mathlib

/-!
The `hat` HTTP test harness: request construction, options and cloning,
assertions on responses, and the URL path joiner.

A shallow embedding of `request.go`, `response.go` and `urljoin.go` of the `hat`
HTTP test harness, together with the parts of the Go standard library these
files call or the properties refer to (`path.Join`, `path.Clean`,
`url.Values.Encode`, `(*url.URL).String`, `url.Parse`, `http.NewRequest`,
`strings.TrimPrefix`, `strings.TrimSuffix`, `strings.Split`).

Conventions of the embedding:

* A Go `string` is a byte sequence; it is embedded as `Str := List Char`, one
  `Char` per byte.
* A `*http.Request` is a pointer into a heap of request objects; the heap is
  the `Store` and a pointer is an index into it.  Code that takes or returns
  such pointers is embedded with explicit store passing.
* `testing.TB` is the failure reporter.  A call that aborts the test
  (`FailNow`, reached through `require.NoError`) and a run-time panic are the
  two abnormal results of `Outcome`.
* What assertions and `Response.Assert` do to the test context and to the body
  of a response is recorded in the `World`, a list of events; code that acts on
  it is embedded with explicit world passing and returns the world also when it
  aborts or panics.
-/

set_option autoImplicit false

namespace Hat

/-! ## Strings and results -/

/-- A Go string: a sequence of bytes. -/
abbrev Str := List Char

/-- Result of running a piece of Go code under a test context: normal return,
abort of the current test through the test context (`t.FailNow`), or a
run-time panic. -/
inductive Outcome (α : Type) where
  | ok : α → Outcome α
  | fatal : Str → Outcome α
  | panic : Str → Outcome α
deriving DecidableEq, Repr

namespace Outcome

variable {α β : Type}

/-- Sequencing: the continuation runs only after a normal return. -/
def bind : Outcome α → (α → Outcome β) → Outcome β
  | ok a, f => f a
  | fatal m, _ => fatal m
  | panic m, _ => panic m

/-- Apply a function to the value of a normal return. -/
def map (f : α → β) : Outcome α → Outcome β
  | ok a => ok (f a)
  | fatal m => fatal m
  | panic m => panic m

/-- Whether the code returned normally. -/
def isOk : Outcome α → Bool
  | ok _ => true
  | _ => false

/-- Whether the code ended in a run-time panic. -/
def isPanic : Outcome α → Bool
  | panic _ => true
  | _ => false

/-- Whether the code aborted the test through the test context. -/
def isFatal : Outcome α → Bool
  | fatal _ => true
  | _ => false

end Outcome

/-! ## Go standard library: `path.Clean` and `path.Join` -/

/-- The backtracking loop of `path.Clean`,
`out.w--; for out.w > dotdot && out.index(out.w) != '/' { out.w-- }`.
The output buffer `out.buf[:out.w]` is kept as a stack whose head is the byte
written last, so `out.w` is the length of the stack, `out.w--` pops, and
`out.index(out.w)` after the decrement is the byte just popped. -/
def backtrack (dotdot : Nat) : List Char → List Char
  | [] => []
  | c :: out => if out.length > dotdot ∧ c ≠ '/' then backtrack dotdot out else out

/-- The element copy loop of `path.Clean`,
`for ; r < n && path[r] != '/'; r++ { out.append(path[r]) }`;
returns the unread input `path[r:]` and the output stack. -/
def copyElem : List Char → List Char → List Char × List Char
  | [], out => ([], out)
  | c :: rest, out => if c = '/' then (c :: rest, out) else copyElem rest (c :: out)

/-- The main loop `for r < n { switch ... }` of `path.Clean`.  `rest` is the
unread input `path[r:]`, `out` the output stack (head = last byte written) and
`dotdot` the index below which `..` must not backtrack.  Every iteration reads
at least one byte, so `rest.length` iterations always reach the end of the
input; `fuel` counts the iterations that are left (`cleanLoop_fuel`). -/
def cleanLoop (rooted : Bool) : Nat → List Char → List Char → Nat → List Char
  | 0, _, out, _ => out
  | _ + 1, [], out, _ => out
  | fuel + 1, c :: t, out, dotdot =>
    if c = '/' then
      -- empty path element
      cleanLoop rooted fuel t out dotdot
    else if c = '.' ∧ (t = [] ∨ t.head? = some '/') then
      -- . element
      cleanLoop rooted fuel t out dotdot
    else if c = '.' ∧ t.head? = some '.' ∧ (t.tail = [] ∨ t.tail.head? = some '/') then
      -- .. element: remove to last /
      if out.length > dotdot then
        -- can backtrack
        cleanLoop rooted fuel t.tail (backtrack dotdot out) dotdot
      else if rooted = false then
        -- cannot backtrack, but not rooted, so append .. element
        let out1 := if out.length > 0 then '/' :: out else out
        let out2 := '.' :: '.' :: out1
        cleanLoop rooted fuel t.tail out2 out2.length
      else
        cleanLoop rooted fuel t.tail out dotdot
    else
      -- real path element: add slash if needed, then copy element
      let out1 :=
        if (rooted = true ∧ out.length ≠ 1) ∨ (rooted = false ∧ out.length ≠ 0) then '/' :: out
        else out
      let res := copyElem (c :: t) out1
      cleanLoop rooted fuel res.1 res.2 dotdot

/-- Go's `path.Clean`: the shortest path name equivalent to `path` by purely
lexical processing. -/
def Clean (path : Str) : Str :=
  if path = [] then ['.']
  else
    let rooted : Bool := decide (path.head? = some '/')
    -- if rooted { out.append('/'); r, dotdot = 1, 1 }
    let rest := if rooted then path.tail else path
    let out0 : List Char := if rooted then ['/'] else []
    let dotdot := if rooted then 1 else 0
    let out := cleanLoop rooted rest.length rest out0 dotdot
    -- Turn empty string into "."
    if out.length = 0 then ['.'] else out.reverse

/-- The buffer loop of `path.Join`: every non-empty element is appended,
separated by `/` from what the buffer already holds. -/
def joinBuf : List Str → Str → Str
  | [], buf => buf
  | e :: es, buf =>
    if buf.length > 0 ∨ e ≠ [] then
      joinBuf es ((if buf.length > 0 then buf ++ ['/'] else buf) ++ e)
    else joinBuf es buf

/-- Go's `path.Join`: joins the elements with slashes, ignoring empty elements,
and cleans the result; all-empty input gives the empty string. -/
def Join (elem : List Str) : Str :=
  let size := (elem.map List.length).sum
  if size = 0 then [] else Clean (joinBuf elem [])

/-! ## Go standard library: functions of `strings` -/

/-- Go's `strings.TrimPrefix`: `s` without the leading `pre`, or `s` itself when
`s` does not start with `pre`. -/
def TrimPrefix (s pre : Str) : Str :=
  if pre.isPrefixOf s then s.drop pre.length else s

/-- Go's `strings.TrimSuffix`: `s` without the trailing `suf`, or `s` itself
when `s` does not end with `suf`. -/
def TrimSuffix (s suf : Str) : Str :=
  if suf.isSuffixOf s then s.take (s.length - suf.length) else s

/-- Go's `strings.IndexByte(s, c)`: the index of the first `c` in `s`; `none`
stands for the result `-1`. -/
def IndexByte : Str → Char → Option Nat
  | [], _ => none
  | b :: s, c => if b = c then some 0 else (IndexByte s c).map (fun m => m + 1)

/-- Go's `strings.Count(s, sep)` for the one-byte separator `c`. -/
def Count : Str → Char → Nat
  | [], _ => 0
  | b :: s, c => if b = c then Count s c + 1 else Count s c

/-! ## Go standard library: `url.Values.Encode` -/

/-- Go's `url.Values`, a `map[string][]string`, as its list of entries (one
entry per key). -/
abbrev Values := List (Str × List Str)

/-- The query-component case of `shouldEscape` in `net/url`: every byte is
escaped except letters, digits and the marks `-`, `_`, `.`, `~`. -/
def shouldEscape (c : Char) : Bool :=
  if ('a'.toNat ≤ c.toNat ∧ c.toNat ≤ 'z'.toNat) ∨ ('A'.toNat ≤ c.toNat ∧ c.toNat ≤ 'Z'.toNat)
      ∨ ('0'.toNat ≤ c.toNat ∧ c.toNat ≤ '9'.toNat) then false
  else if c = '-' ∨ c = '_' ∨ c = '.' ∨ c = '~' then false
  else true

/-- The table `upperhex` of `net/url`, indexed by a four-bit value. -/
def upperhex (n : Nat) : Char :=
  "0123456789ABCDEF".toList.getD n '0'

/-- Go's `url.QueryEscape`: a space becomes `+`, a byte that must be escaped
becomes `%` followed by its two upper-case hex digits. -/
def QueryEscape : Str → Str
  | [] => []
  | c :: s =>
    if c = ' ' then '+' :: QueryEscape s
    else if shouldEscape c then
      '%' :: upperhex (c.toNat / 16 % 16) :: upperhex (c.toNat % 16) :: QueryEscape s
    else c :: QueryEscape s

/-- Byte-wise lexicographic order on Go strings (`a <= b`). -/
def strLe : Str → Str → Bool
  | [], _ => true
  | _ :: _, [] => false
  | a :: s, b :: t =>
    if a.toNat < b.toNat then true else if b.toNat < a.toNat then false else strLe s t

/-- Insertion of one key into a sorted list of keys. -/
def insertKey (k : Str) : List Str → List Str
  | [] => [k]
  | x :: xs => if strLe k x then k :: x :: xs else x :: insertKey k xs

/-- The keys in increasing order, as `slices.Sort(keys)` leaves them. -/
def sortKeys (keys : List Str) : List Str :=
  keys.foldr insertKey []

/-- The map lookup `v[k]`; a missing key gives the nil slice. -/
def Values.get (v : Values) (k : Str) : List Str :=
  match v.find? (fun e => e.1 = k) with
  | some e => e.2
  | none => []

/-- The inner loop of `Values.Encode` over the values `vs` of one key:
writes `&` when the buffer is non-empty, then `key=value`. -/
def encodeKey (keyEscaped : Str) : List Str → Str → Str
  | [], buf => buf
  | x :: vs, buf =>
    let buf1 := if buf.length > 0 then buf ++ ['&'] else buf
    encodeKey keyEscaped vs (buf1 ++ keyEscaped ++ ['='] ++ QueryEscape x)

/-- The outer loop of `Values.Encode` over the sorted keys. -/
def encodeKeys (v : Values) : List Str → Str → Str
  | [], buf => buf
  | k :: keys, buf => encodeKeys v keys (encodeKey (QueryEscape k) (v.get k) buf)

/-- Go's `url.Values.Encode`: the values in "URL encoded" form
(`bar=baz&foo=quux`), sorted by key. -/
def Values.Encode (v : Values) : Str :=
  if v.length = 0 then [] else encodeKeys v (sortKeys (v.map Prod.fst)) []

/-! ## Requests of `net/http` -/

/-- The fields of Go's `url.URL` that the harness reads or writes. -/
structure URL where
  Scheme : Str
  Host : Str
  Path : Str
  RawQuery : Str
deriving DecidableEq, Repr

/-- An `io.Reader` value: the bytes the stream yields, and whether its dynamic
type also has a `Close` method; `closer = some e` says that it has one and that
calling it returns the error `e` (`none` for `nil`). -/
structure Reader where
  data : Str
  closer : Option (Option Str)
deriving DecidableEq, Repr

/-- An `io.ReadCloser` value as `Body` builds it: either the given reader
itself, or the adapter `ioutil.NopCloser` around it. -/
inductive ReadCloser where
  | self : Reader → ReadCloser
  | nopCloser : Reader → ReadCloser
deriving DecidableEq, Repr

/-- The bytes read from a `ReadCloser`: those of the underlying reader. -/
def ReadCloser.data : ReadCloser → Str
  | .self r => r.data
  | .nopCloser r => r.data

/-- The error returned by `Close` (`none` for `nil`): the reader's own `Close`
result, and always `nil` for the `NopCloser` adapter. -/
def ReadCloser.Close : ReadCloser → Option Str
  | .self r => r.closer.getD none
  | .nopCloser _ => none

/-- The fields of Go's `http.Request` that the harness reads or writes. -/
structure HttpRequest where
  Method : Str
  URL : URL
  Body : Option ReadCloser
deriving DecidableEq, Repr

/-- The heap of `http.Request` objects; a `*http.Request` is an index into it. -/
abbrev Store := List HttpRequest

/-! ## Go standard library: printing and parsing of a URL in `net/url`

`T.Request` passes `t.URL.String()` to `http.NewRequest`, which parses it with
`url.Parse`.  Both are embedded here, as they stand in Go 1.22, for a URL whose
other fields (`Opaque`, `User`, `RawPath`, `OmitHost`, `ForceQuery`,
`Fragment`) are empty; of the parsed URL the four fields of `URL` are kept. -/

/-- Go's `strings.LastIndexByte(s, c)`; `none` stands for the result `-1`. -/
def LastIndexByte : Str → Char → Option Nat
  | [], _ => none
  | b :: s, c =>
    match LastIndexByte s c with
    | some i => some (i + 1)
    | none => if b = c then some 0 else none

/-- Go's `strings.Index(s, substr)`; `none` stands for the result `-1`. -/
def Index : Str → Str → Option Nat
  | [], sub => if sub = [] then some 0 else none
  | b :: s, sub =>
    if sub.isPrefixOf (b :: s) then some 0 else (Index s sub).map (fun i => i + 1)

/-- Go's `strings.Cut(s, sep)` for the one-byte separator `c`: the text before
the first `c` and the text after it, or `s` and the empty string when there is
no `c`. -/
def Cut (s : Str) (c : Char) : Str × Str :=
  match IndexByte s c with
  | some i => (s.take i, s.drop (i + 1))
  | none => (s, [])

/-- Go's `strings.ToLower` on ASCII text. -/
def ToLower (s : Str) : Str :=
  s.map (fun c => if 'A'.toNat ≤ c.toNat ∧ c.toNat ≤ 'Z'.toNat then Char.ofNat (c.toNat + 32) else c)

/-- The test `'a' <= c && c <= 'z' || 'A' <= c && c <= 'Z'`. -/
def isLetter (c : Char) : Bool :=
  ('a'.toNat ≤ c.toNat ∧ c.toNat ≤ 'z'.toNat) ∨ ('A'.toNat ≤ c.toNat ∧ c.toNat ≤ 'Z'.toNat)

/-- The test `'0' <= c && c <= '9'`. -/
def isDigit (c : Char) : Bool :=
  '0'.toNat ≤ c.toNat ∧ c.toNat ≤ '9'.toNat

/-- The modes of escaping of `net/url` that printing and parsing a URL use
(`encodePath`, `encodeHost`, `encodeZone`, `encodeUserPassword`,
`encodeFragment`). -/
inductive Encoding where
  | path
  | host
  | zone
  | userPassword
  | fragment
deriving DecidableEq, Repr

/-- The function `shouldEscape(c, encodeHost)` of `net/url`: letters, digits,
the sub-delimiters and `: [ ] < > "` and the marks `- _ . ~` are not escaped in
a host; every other byte is. -/
def shouldEscapeHost (c : Char) : Bool :=
  if isLetter c ∨ isDigit c then false
  else if c ∈ "!$&'()*+,;=:[]<>".toList ∨ c = Char.ofNat 34 then false
  else if c = '-' ∨ c = '_' ∨ c = '.' ∨ c = '~' then false
  else true

/-- The function `shouldEscape(c, encodePath)` of `net/url`: letters, digits,
the marks `- _ . ~` and the reserved bytes other than `?` are not escaped in a
path; every other byte is. -/
def shouldEscapePath (c : Char) : Bool :=
  if isLetter c ∨ isDigit c then false
  else if c = '-' ∨ c = '_' ∨ c = '.' ∨ c = '~' then false
  else if c ∈ "$&+,/:;=@".toList then false
  else true

/-- The function `escape(s, mode)` of `net/url` for a mode other than
`encodeQueryComponent`: a byte that must be escaped becomes `%` followed by its
two upper-case hex digits. -/
def escape (should : Char → Bool) : Str → Str
  | [] => []
  | c :: s =>
    if should c then
      '%' :: upperhex (c.toNat / 16 % 16) :: upperhex (c.toNat % 16) :: escape should s
    else c :: escape should s

/-- Go's `(*URL).EscapedPath` when `RawPath` is empty. -/
def URL.EscapedPath (u : URL) : Str :=
  if u.Path = ['*'] then ['*'] else escape shouldEscapePath u.Path

/-- Go's `(*URL).String` for a URL without opaque part, user, fragment and
forced query: `scheme://host/path?query`, where the path gets a leading slash
after a host, and a first path segment with a colon gets `./` in front when
nothing precedes it. -/
def URL.String (u : URL) : Str :=
  let buf1 : Str := if u.Scheme ≠ [] then u.Scheme ++ [':'] else []
  let buf2 : Str :=
    if u.Scheme ≠ [] ∨ u.Host ≠ [] then
      (if u.Host ≠ [] ∨ u.Path ≠ [] then buf1 ++ ['/', '/'] else buf1) ++
        (if u.Host ≠ [] then escape shouldEscapeHost u.Host else [])
    else buf1
  let path := u.EscapedPath
  let buf3 : Str :=
    if path ≠ [] ∧ path.head? ≠ some '/' ∧ u.Host ≠ [] then buf2 ++ ['/'] else buf2
  let buf4 : Str :=
    if buf3.length = 0 ∧ ':' ∈ (Cut path '/').1 then buf3 ++ ['.', '/'] else buf3
  let buf5 := buf4 ++ path
  if u.RawQuery ≠ [] then buf5 ++ ['?'] ++ u.RawQuery else buf5

/-- The function `ishex` of `net/url`. -/
def ishex (c : Char) : Bool :=
  isDigit c ∨ ('a'.toNat ≤ c.toNat ∧ c.toNat ≤ 'f'.toNat) ∨
    ('A'.toNat ≤ c.toNat ∧ c.toNat ≤ 'F'.toNat)

/-- The function `unhex` of `net/url`. -/
def unhex (c : Char) : Nat :=
  if isDigit c then c.toNat - '0'.toNat
  else if 'a'.toNat ≤ c.toNat ∧ c.toNat ≤ 'f'.toNat then c.toNat - 'a'.toNat + 10
  else if 'A'.toNat ≤ c.toNat ∧ c.toNat ≤ 'F'.toNat then c.toNat - 'A'.toNat + 10
  else 0

/-- The function `unescape(s, mode)` of `net/url`; `none` stands for an error.
A `%` must be followed by two hex digits; in a host it may only escape a byte
from `0x80` on, or be `%25`, and in a zone only `%25`, a space or a byte that a
host may hold; a host or zone may not hold an ASCII byte that a host must
escape. -/
def unescape (mode : Encoding) : Str → Option Str
  | [] => some []
  | c :: s =>
    if c = '%' then
      match s with
      | a :: b :: rest =>
        if ishex a = false ∨ ishex b = false then none
        else if mode = .host ∧ unhex a < 8 ∧ ¬ (a = '2' ∧ b = '5') then none
        else if mode = .zone ∧ ¬ (a = '2' ∧ b = '5') ∧ unhex a * 16 + unhex b ≠ ' '.toNat ∧
            shouldEscapeHost (Char.ofNat (unhex a * 16 + unhex b)) then none
        else (unescape mode rest).map (fun t => Char.ofNat (unhex a * 16 + unhex b) :: t)
      | _ => none
    else if (mode = .host ∨ mode = .zone) ∧ c.toNat < 128 ∧ shouldEscapeHost c then none
    else (unescape mode s).map (fun t => c :: t)

/-- The function `stringContainsCTLByte` of `net/url`. -/
def stringContainsCTLByte (s : Str) : Bool :=
  s.any (fun b => b.toNat < ' '.toNat ∨ b.toNat = 127)

/-- The loop of `getScheme` of `net/url`: `i` is the index of the head of the
unread text; `none` stands for the error "missing protocol scheme". -/
def getSchemeLoop (rawURL : Str) : Nat → Str → Option (Str × Str)
  | _, [] => some ([], rawURL)
  | i, c :: rest =>
    if isLetter c then getSchemeLoop rawURL (i + 1) rest
    else if isDigit c ∨ c = '+' ∨ c = '-' ∨ c = '.' then
      if i = 0 then some ([], rawURL) else getSchemeLoop rawURL (i + 1) rest
    else if c = ':' then
      if i = 0 then none else some (rawURL.take i, rest)
    else some ([], rawURL)

/-- The function `getScheme` of `net/url`: the scheme and the text after its
colon, or no scheme and the whole text. -/
def getScheme (rawURL : Str) : Option (Str × Str) :=
  getSchemeLoop rawURL 0 rawURL

/-- The function `validOptionalPort` of `net/url`: empty, or a colon followed
by digits. -/
def validOptionalPort (port : Str) : Bool :=
  match port with
  | [] => true
  | c :: digits => decide (c = ':') && digits.all isDigit

/-- The function `validUserinfo` of `net/url`. -/
def validUserinfo (s : Str) : Bool :=
  s.all (fun r => isLetter r ∨ isDigit r ∨ r ∈ "-._:~!$&'()*+,;=%@".toList)

/-- The function `parseHost` of `net/url`; `none` stands for an error. -/
def parseHost (host : Str) : Option Str :=
  if ['['].isPrefixOf host then
    match LastIndexByte host ']' with
    | none => none
    | some i =>
      if validOptionalPort (host.drop (i + 1)) = false then none
      else
        match Index (host.take i) "%25".toList with
        | some zone =>
          match unescape .host (host.take zone), unescape .zone ((host.take i).drop zone),
              unescape .host (host.drop i) with
          | some host1, some host2, some host3 => some (host1 ++ host2 ++ host3)
          | _, _, _ => none
        | none => unescape .host host
  else
    match LastIndexByte host ':' with
    | some i => if validOptionalPort (host.drop i) = false then none else unescape .host host
    | none => unescape .host host

/-- The function `parseAuthority` of `net/url`, of which the host is kept;
`none` stands for an error. -/
def parseAuthority (authority : Str) : Option Str :=
  match LastIndexByte authority '@' with
  | none => parseHost authority
  | some i =>
    match parseHost (authority.drop (i + 1)) with
    | none => none
    | some host =>
      let userinfo := authority.take i
      if validUserinfo userinfo = false then none
      else if ':' ∈ userinfo then
        match unescape .userPassword (Cut userinfo ':').1,
            unescape .userPassword (Cut userinfo ':').2 with
        | some _, some _ => some host
        | _, _ => none
      else
        match unescape .userPassword userinfo with
        | some _ => some host
        | none => none

/-- The function `parse(rawURL, false)` of `net/url`; `none` stands for an
error.  A rootless text after a scheme is the opaque part, which `URL` does
not hold. -/
def parseURL (rawURL : Str) : Option URL :=
  if stringContainsCTLByte rawURL then none
  else if rawURL = ['*'] then some { Scheme := [], Host := [], Path := ['*'], RawQuery := [] }
  else
    match getScheme rawURL with
    | none => none
    | some (scheme0, rest0) =>
      let scheme := ToLower scheme0
      let forced : Bool := ['?'].isSuffixOf rest0 && decide (Count rest0 '?' = 1)
      let rest : Str := if forced then rest0.take (rest0.length - 1) else (Cut rest0 '?').1
      let rawQuery : Str := if forced then [] else (Cut rest0 '?').2
      if ['/'].isPrefixOf rest = false ∧ scheme ≠ [] then
        some { Scheme := scheme, Host := [], Path := [], RawQuery := rawQuery }
      else if ['/'].isPrefixOf rest = false ∧ ':' ∈ (Cut rest '/').1 then none
      else if (scheme ≠ [] ∨ ['/', '/', '/'].isPrefixOf rest = false) ∧
          ['/', '/'].isPrefixOf rest then
        let authority0 := rest.drop 2
        let authority := match IndexByte authority0 '/' with
          | some i => authority0.take i
          | none => authority0
        let rest1 := match IndexByte authority0 '/' with
          | some i => authority0.drop i
          | none => []
        match parseAuthority authority with
        | none => none
        | some host =>
          match unescape .path rest1 with
          | none => none
          | some path =>
            some { Scheme := scheme, Host := host, Path := path, RawQuery := rawQuery }
      else
        match unescape .path rest with
        | none => none
        | some path => some { Scheme := scheme, Host := [], Path := path, RawQuery := rawQuery }

/-- Go's `url.Parse`: the text before the first `#` is parsed, the fragment
after it must unescape; `none` stands for an error. -/
def Parse (rawURL : Str) : Option URL :=
  match parseURL (Cut rawURL '#').1 with
  | none => none
  | some u =>
    if (Cut rawURL '#').2 = [] then some u
    else
      match unescape .fragment (Cut rawURL '#').2 with
      | none => none
      | some _ => some u

/-- The function `removeEmptyPort` of `net/http`: a host that ends in a colon
with no port after it loses the colon. -/
def removeEmptyPort (host : Str) : Str :=
  let idx : Option Nat → Int := fun o => match o with
    | some i => (i : Int)
    | none => -1
  if idx (LastIndexByte host ':') > idx (LastIndexByte host ']') then TrimSuffix host [':']
  else host

/-- The table `isTokenTable` of `golang.org/x/net/http/httpguts`: the bytes
allowed in an HTTP token. -/
def isTokenRune (c : Char) : Bool :=
  ('a'.toNat ≤ c.toNat ∧ c.toNat ≤ 'z'.toNat) ∨ ('A'.toNat ≤ c.toNat ∧ c.toNat ≤ 'Z'.toNat)
    ∨ ('0'.toNat ≤ c.toNat ∧ c.toNat ≤ '9'.toNat) ∨ c ∈ "!#$%&'*+-.^_`|~".toList

/-- The function `validMethod` of `net/http`: a non-empty token. -/
def validMethod (method : Str) : Bool :=
  decide (method.length > 0) && method.all isTokenRune

/-- Go's `http.NewRequest(method, target.String(), nil)`, up to the allocation
of the result: an empty method means `GET`, an invalid method is an error, the
text of the target is parsed by `url.Parse`, which may fail, and the new
request has the method, the parsed URL with an empty port removed from the
host, and no body. -/
def httpNewRequest (method : Str) (target : URL) : Except Str HttpRequest :=
  let method := if method = [] then "GET".toList else method
  if validMethod method = false then .error "net/http: invalid method".toList
  else
    match Parse target.String with
    | none => .error "parse error".toList
    | some u =>
      .ok { Method := method, URL := { u with Host := removeEmptyPort u.Host }, Body := none }

/-! ## `request.go` -/

/-- The type `RequestOption` of `request.go`, `func(t testing.TB, req *http.Request)`:
a modification of the request `req` points to, which may instead abort the test
through `t` or panic. -/
abbrev RequestOption := HttpRequest → Outcome HttpRequest

/-- The call `o(t, req)` of an option on the pointer `req`: the option acts on
the request stored at `req`; a pointer to no request is a nil dereference. -/
def RequestOption.run (o : RequestOption) (req : Nat) (s : Store) : Outcome Store :=
  match s[req]? with
  | none => .panic "invalid memory address or nil pointer dereference".toList
  | some v => (o v).map (fun v1 => s.set req v1)

/-- The function `URLParams` of `request.go`: `req.URL.RawQuery += v.Encode()`. -/
def URLParams (v : Values) : RequestOption := fun req =>
  .ok { req with URL := { req.URL with RawQuery := req.URL.RawQuery ++ v.Encode } }

/-- The function `Path` of `request.go`.  The path is joined first; the test
`elem[len(elem)-1] == '/'` then indexes `elem`, which panics for the empty
string. -/
def Path (elem : Str) : RequestOption := fun req =>
  let path := Join [req.URL.Path, elem]
  -- preserve trailing slash
  match elem.getLast? with
  | none => .panic "index out of range [-1]".toList
  | some last =>
    if last = '/' ∧ path ≠ ['/'] then
      .ok { req with URL := { req.URL with Path := path ++ ['/'] } }
    else
      .ok { req with URL := { req.URL with Path := path } }

/-- The function `Body` of `request.go`: the reader is used as it is when it is
an `io.ReadCloser`, and wrapped by `ioutil.NopCloser` otherwise. -/
def Body (r : Reader) : RequestOption :=
  let rc := match r.closer with
    | some _ => ReadCloser.self r
    | none => ReadCloser.nopCloser r
  fun req => .ok { req with Body := some rc }

/-- The function `CombineRequestOptions` of `request.go`: the returned option
runs `for _, o := range opts { o(t, req) }`. -/
def CombineRequestOptions : List RequestOption → RequestOption
  | [], req => .ok req
  | o :: opts, req =>
    match o req with
    | .ok req1 => CombineRequestOptions opts req1
    | .fatal m => .fatal m
    | .panic m => .panic m

/-- The type `Request` of `request.go`: the pointer `r` to the request and the
closure `copy` that builds a fresh request. -/
structure Request where
  r : Nat
  copy : Store → Outcome (Nat × Store)

/-- The function `makeRequest` of `request.go`: `Request{r: copy(), copy: copy}`. -/
def makeRequest (copy : Store → Outcome (Nat × Store)) (s : Store) :
    Outcome (Request × Store) :=
  match copy s with
  | .ok (req, s1) => .ok ({ r := req, copy := copy }, s1)
  | .fatal m => .fatal m
  | .panic m => .panic m

/-- The loop `for _, opt := range opts { opt(t, req) }` in the closures of
`Clone` and `T.Request`. -/
def rangeOpts : List RequestOption → Nat → Store → Outcome Store
  | [], _, s => .ok s
  | opt :: opts, req, s =>
    match opt.run req s with
    | .ok s1 => rangeOpts opts req s1
    | .fatal m => .fatal m
    | .panic m => .panic m

/-- The method `Request.Clone` of `request.go`: `makeRequest` on the closure
that calls `r.copy()` and applies `opts` to the result. -/
def Request.Clone (r : Request) (opts : List RequestOption) (s : Store) :
    Outcome (Request × Store) :=
  makeRequest (fun s0 =>
    match r.copy s0 with
    | .ok (req, s1) => (rangeOpts opts req s1).map (fun s2 => (req, s2))
    | .fatal m => .fatal m
    | .panic m => .panic m) s

/-- Modelled from the spec: the type `T` is declared in a file of the package
that is not at hand; of "the ambient per-test object (target URL, client,
reporter)" the base URL "configured once per test context" is the field that
`request.go` reads.  The reporter is the `Outcome` of every operation. -/
structure T where
  URL : URL
deriving DecidableEq, Repr

/-- The method `T.Request` of `request.go`: `makeRequest` on the closure that
creates a request with `http.NewRequest`, aborts the test when that fails, and
applies `opts` to the new request. -/
def T.Request (t : T) (method : Str) (opts : List RequestOption) (s : Store) :
    Outcome (Hat.Request × Store) :=
  makeRequest (fun s0 =>
    match httpNewRequest method t.URL with
    | .error _ => .fatal "failed to create request".toList
    | .ok v => (rangeOpts opts s0.length (s0 ++ [v])).map (fun s2 => (s0.length, s2))) s

/-- The method `T.Get` of `request.go`. -/
def T.Get (t : T) (opts : List RequestOption) (s : Store) : Outcome (Hat.Request × Store) :=
  t.Request "GET".toList opts s

/-- The method `T.Head` of `request.go`. -/
def T.Head (t : T) (opts : List RequestOption) (s : Store) : Outcome (Hat.Request × Store) :=
  t.Request "HEAD".toList opts s

/-- The method `T.Post` of `request.go`. -/
def T.Post (t : T) (opts : List RequestOption) (s : Store) : Outcome (Hat.Request × Store) :=
  t.Request "POST".toList opts s

/-- The method `T.Put` of `request.go`. -/
def T.Put (t : T) (opts : List RequestOption) (s : Store) : Outcome (Hat.Request × Store) :=
  t.Request "PUT".toList opts s

/-- The method `T.Patch` of `request.go`. -/
def T.Patch (t : T) (opts : List RequestOption) (s : Store) : Outcome (Hat.Request × Store) :=
  t.Request "PATCH".toList opts s

/-- The method `T.Delete` of `request.go`. -/
def T.Delete (t : T) (opts : List RequestOption) (s : Store) : Outcome (Hat.Request × Store) :=
  t.Request "DELETE".toList opts s

/-! ## `urljoin.go` -/

/-- The loop of `urlJoin`: `i` is the index of the element at the head of the
remaining elements, `n` is `len(elems)` and `u` the builder. -/
def urlJoinLoop (n : Nat) : Nat → List Str → Str → Str
  | _, [], u => u
  | i, e :: elems, u =>
    let e1 := TrimSuffix (TrimPrefix e ['/']) ['/']
    let u1 := u ++ e1
    urlJoinLoop n (i + 1) elems (if (i : Int) ≠ (n : Int) - 1 then u1 ++ ['/'] else u1)

/-- The function `urlJoin` of `urljoin.go`. -/
def urlJoin (elems : List Str) : Str :=
  urlJoinLoop elems.length 0 elems []

/-! ## Go standard library: `strings.Split` on a slash -/

/-- The loop `for i < n { m := Index(s, sep); if m < 0 { break }; a[i] = s[:m];
s = s[m+len(sep):]; i++ }` of `genSplit` with the final `a[i] = s`, for the
separator `/`; the first argument is `n - i`. -/
def splitLoop : Nat → Str → List Str
  | 0, s => [s]
  | n + 1, s =>
    match IndexByte s '/' with
    | none => [s]
    | some m => s.take m :: splitLoop n (s.drop (m + 1))

/-- Go's `strings.Split(s, "/")`: `genSplit(s, "/", 0, -1)`, where the number of
pieces is `Count(s, "/") + 1`, capped by `len(s) + 1`. -/
def Split (s : Str) : List Str :=
  let n := Count s '/' + 1
  let n1 := if n > s.length + 1 then s.length + 1 else n
  splitLoop (n1 - 1) s

/-! ## `response.go` -/

/-- What the code does to the test context and to the response bodies, as it
happens: a failure reported through the test context without aborting the test
(`t.Errorf`, a failing `assert`), or a call of `Close` on the body stream with
the given identity. -/
inductive Event where
  | report : Str → Event
  | close : Nat → Event
deriving DecidableEq, Repr

/-- The state outside the requests: the events so far, oldest first. -/
abbrev World := List Event

/-- The type `Response` of `response.go`, which embeds `*http.Response`: the
status code and the identity of the body stream `Body`; what has happened to
the body is in the `World`. -/
structure Response where
  StatusCode : Nat
  Body : Nat
deriving DecidableEq, Repr

/-- The type `ResponseAssertion` of `response.go`, `func(t T, r Response)`: it
inspects the response and acts on the world; the result says whether it
returned, aborted the test or panicked, and in every case which world it
left. -/
abbrev ResponseAssertion := T → Response → World → Outcome Unit × World

/-- The function `CombineResponseAssertions` of `response.go`: the returned
assertion runs `for _, a := range asserts { a(t, r) }`. -/
def CombineResponseAssertions : List ResponseAssertion → ResponseAssertion
  | [], _, _, w => (.ok (), w)
  | a :: asserts, t, r, w =>
    match a t r w with
    | (.ok _, w1) => CombineResponseAssertions asserts t r w1
    | (.fatal m, w1) => (.fatal m, w1)
    | (.panic m, w1) => (.panic m, w1)

/-- The loop `for _, a := range assertions { a(t, r) }` of `Response.Assert`. -/
def rangeAsserts : List ResponseAssertion → T → Response → World → Outcome Unit × World
  | [], _, _, w => (.ok (), w)
  | a :: assertions, t, r, w =>
    match a t r w with
    | (.ok _, w1) => rangeAsserts assertions t r w1
    | (.fatal m, w1) => (.fatal m, w1)
    | (.panic m, w1) => (.panic m, w1)

/-- The method `Response.Assert` of `response.go`.  `defer r.Body.Close()`
registers the call of `Close`; it runs when the function leaves, which is after
the loop on a normal return (`return r`), and also when an assertion aborts the
test or panics.  The error `Close` returns is dropped. -/
def Response.Assert (r : Response) (t : T) (assertions : List ResponseAssertion) (w : World) :
    Outcome Response × World :=
  let res := rangeAsserts assertions t r w
  ((res.1).map (fun _ => r), res.2 ++ [Event.close r.Body])

/-! ## Invariant of the output buffer of `path.Clean` -/

/-- No slash of the stack is directly followed by another slash. -/
def NoAdj : List Char → Prop
  | [] => True
  | c :: l => (c = '/' → l.head? ≠ some '/') ∧ NoAdj l

/-- Invariant of the loop of `path.Clean` on the output stack: the bottom
`dotdot` bytes (`base`) are the leading slash when the path is rooted and
otherwise do not end in a slash; the part written above them (`top`) does not
end in a slash; nowhere do two slashes follow each other. -/
def CleanInv (rooted : Bool) (out : List Char) (dotdot : Nat) : Prop :=
  ∃ top base, out = top ++ base ∧ base.length = dotdot ∧
    (rooted = true → base = ['/']) ∧ (rooted = false → base.head? ≠ some '/') ∧
    top.head? ≠ some '/' ∧ NoAdj out

/-! ## Notions used to state the properties -/

/-- The options applied one after another in list order, each to the request
the previous one left; an abort or a panic ends the sequence. -/
def applyInOrder (opts : List RequestOption) (req : HttpRequest) : Outcome HttpRequest :=
  opts.foldl (fun acc o => acc.bind o) (.ok req)

/-- The requests the package builds: `Produced t c s1` says that `c` is the
result of `T.Request`, or of `Clone` on a request built in this way, and that
`s1` is the store this call left. -/
inductive Produced (t : T) : Request → Store → Prop
  | request (method : Str) (opts : List RequestOption) (s : Store) (c : Request) (s1 : Store) :
      t.Request method opts s = .ok (c, s1) → Produced t c s1
  | clone (r : Request) (s0 : Store) (opts : List RequestOption) (s : Store) (c : Request)
      (s1 : Store) : Produced t r s0 → r.Clone opts s = .ok (c, s1) → Produced t c s1

/-- The path that the sentence "segment-join semantics of the URL Path Joiner,
applied once between existing path and the new segment" describes: `urlJoin`
of the current path and the segment, with a trailing slash re-appended when the
segment ends in one. -/
def pathByUrlJoin (p seg : Str) : Str :=
  if seg.getLast? = some '/' then urlJoin [p, seg] ++ ['/'] else urlJoin [p, seg]

/-- The test context of the examples, with target `http://example.test`. -/
def exampleT : T :=
  { URL := { Scheme := "http".toList, Host := "example.test".toList, Path := [], RawQuery := [] } }

/-- The request `GET http://example.test` that `http.NewRequest` creates for
`exampleT`; its path is empty. -/
def exampleFresh : HttpRequest :=
  { Method := "GET".toList, URL := exampleT.URL, Body := none }

/-- A request `GET http://example.test/api`. -/
def exampleApi : HttpRequest :=
  { Method := "GET".toList,
    URL := { Scheme := "http".toList, Host := "example.test".toList, Path := "/api".toList,
             RawQuery := [] },
    Body := none }

/-- The base request of the clone examples, `exampleT.Get(Path("a"))`, built
in the empty store, with the store it leaves. -/
def exampleBase : Request × Store :=
  match exampleT.Get [Path "a".toList] [] with
  | .ok x => x
  | _ => ({ r := 0, copy := fun _ => .fatal [] }, [])

/-- The clone `exampleBase.Clone(Path("b"))`, with the store it leaves. -/
def exampleCloneB : Request × Store :=
  match exampleBase.1.Clone [Path "b".toList] exampleBase.2 with
  | .ok x => x
  | _ => ({ r := 0, copy := fun _ => .fatal [] }, [])

/-- The clone `exampleBase.Clone(Path("c/"))` built after `exampleCloneB`, with
the store it leaves. -/
def exampleCloneC : Request × Store :=
  match exampleBase.1.Clone [Path "c/".toList] exampleCloneB.2 with
  | .ok x => x
  | _ => ({ r := 0, copy := fun _ => .fatal [] }, [])

/-- The request `req` with the URL path replaced by `p`. -/
def HttpRequest.withPath (req : HttpRequest) (p : Str) : HttpRequest :=
  { req with URL := { req.URL with Path := p } }

/-- The path of the request a pointer refers to, when it refers to one. -/
def pathAt (s : Store) (req : Nat) : Option Str :=
  s[req]?.map (fun v => v.URL.Path)

/-- The request `req` with the raw query replaced by `q`. -/
def HttpRequest.withRawQuery (req : HttpRequest) (q : Str) : HttpRequest :=
  { req with URL := { req.URL with RawQuery := q } }

/-- The request `req` with the body replaced by `rc`. -/
def HttpRequest.withBody (req : HttpRequest) (rc : ReadCloser) : HttpRequest :=
  { req with Body := some rc }

/-- The reader a `ReadCloser` reads from. -/
def ReadCloser.source : ReadCloser → Reader
  | .self r => r
  | .nopCloser r => r

/-- A lower-case letter. -/
def isLowerLetter (c : Char) : Bool :=
  'a'.toNat ≤ c.toNat ∧ c.toNat ≤ 'z'.toNat

/-- A byte of a plain host name: a letter, a digit, `-` or `.`. -/
def plainHostChar (c : Char) : Bool :=
  isLetter c ∨ isDigit c ∨ c = '-' ∨ c = '.'

/-- A byte of a plain path: a letter, a digit, one of `- _ . ~` or a slash. -/
def plainPathChar (c : Char) : Bool :=
  isLetter c ∨ isDigit c ∨ c = '-' ∨ c = '_' ∨ c = '.' ∨ c = '~' ∨ c = '/'

/-- A byte of a plain query: a letter, a digit or one of `- _ . ~ = & + %`. -/
def plainQueryChar (c : Char) : Bool :=
  isLetter c ∨ isDigit c ∨ c = '-' ∨ c = '_' ∨ c = '.' ∨ c = '~' ∨ c = '=' ∨ c = '&' ∨ c = '+' ∨
    c = '%'

/-- A plain host: a non-empty name of plain bytes, alone or followed by a colon
and a non-empty decimal port. -/
def plainHost (h : Str) : Bool :=
  match IndexByte h ':' with
  | none => decide (h ≠ []) && h.all plainHostChar
  | some i =>
    decide (i ≠ 0) && (h.take i).all plainHostChar && decide (h.drop (i + 1) ≠ []) &&
      (h.drop (i + 1)).all isDigit

/-- A plain base URL, such as `http://example.test` or
`http://127.0.0.1:8080/api?v=1`: a scheme of lower-case letters, a plain host, a
path that is empty or starts with a slash and holds plain bytes, and a query of
plain bytes. -/
def plainURL (u : URL) : Bool :=
  decide (u.Scheme ≠ []) && u.Scheme.all isLowerLetter && plainHost u.Host &&
    (decide (u.Path = []) || (decide (u.Path.head? = some '/') && u.Path.all plainPathChar)) &&
    u.RawQuery.all plainQueryChar

/-- A test context whose base URL has the path `api`, without a leading
slash. -/
def exampleNoSlash : T :=
  { URL := { Scheme := "http".toList, Host := "example.test".toList, Path := "api".toList,
             RawQuery := [] } }

/-- A test context whose base URL has a space in the host. -/
def exampleBadHost : T :=
  { URL := { Scheme := "http".toList, Host := "exa mple.test".toList, Path := [],
             RawQuery := [] } }

/-- A test context whose base URL has a host that ends in a colon without a
port. -/
def exampleEmptyPort : T :=
  { URL := { Scheme := "http".toList, Host := "example.test:".toList, Path := [],
             RawQuery := [] } }

/-- A test context with a port, a path and a query in the base URL, as a local
test server has. -/
def exampleLocal : T :=
  { URL := { Scheme := "http".toList, Host := "127.0.0.1:8080".toList, Path := "/api".toList,
             RawQuery := "v=1".toList } }

/-- The segment without one leading slash, when it has one. -/
def dropLeadingSlash : Str → Str
  | [] => []
  | c :: e => if c = '/' then e else c :: e

/-- The segment without one trailing slash, when it has one. -/
def dropTrailingSlash (e : Str) : Str :=
  if e.getLast? = some '/' then e.dropLast else e

/-- The segments concatenated with exactly one slash between consecutive
segments, nothing before the first and nothing after the last. -/
def joinWithSlash : List Str → Str
  | [] => []
  | [e] => e
  | e :: f :: es => e ++ '/' :: joinWithSlash (f :: es)

/-- The assertions run one after another in list order, with the same test
context and response, each in the world the previous one left; an abort or a
panic ends the sequence. -/
def assertInOrder (asserts : List ResponseAssertion) (t : T) (r : Response) (w : World) :
    Outcome Unit × World :=
  asserts.foldl (fun acc a =>
    match acc with
    | (.ok _, w1) => a t r w1
    | (.fatal m, w1) => (.fatal m, w1)
    | (.panic m, w1) => (.panic m, w1)) (.ok (), w)

/-- The world after every assertion of the list has run exactly once, in list
order, each in the world the previous one left. -/
def worldAfter (asserts : List ResponseAssertion) (t : T) (r : Response) (w : World) : World :=
  asserts.foldl (fun w1 a => (a t r w1).2) w

/-- An assertion that reports the failures `f t r` (none, one or several)
through the test context and returns. -/
def reporting (f : T → Response → List Str) : ResponseAssertion :=
  fun t r w => (.ok (), w ++ (f t r).map Event.report)

/-- The reports of a list of reporting assertions, member after member in list
order. -/
def reportsOf : List (T → Response → List Str) → T → Response → List Event
  | [], _, _ => []
  | f :: fs, t, r => (f t r).map Event.report ++ reportsOf fs t r

/-- An assertion that aborts the test with message `m` (`require`, `t.Fatal`),
after reporting through the test context. -/
def aborting (m : Str) : ResponseAssertion :=
  fun _ _ w => (.fatal m, w ++ [Event.report m])

/-- An assertion that panics with message `m`. -/
def panicking (m : Str) : ResponseAssertion :=
  fun _ _ w => (.panic m, w)

/-- Whether the event is a reported failure. -/
def Event.isReport : Event → Bool
  | .report _ => true
  | .close _ => false

/-- An assertion whose result depends on the world it runs in: it aborts the
test when a failure has been reported before (`if t.Failed() { t.FailNow() }`)
and returns otherwise. -/
def abortIfFailed : ResponseAssertion :=
  fun _ _ w =>
    if w.any Event.isReport then (.fatal "failed before".toList, w) else (.ok (), w)

/-- The failures of the check "the status code is `code`": one when it is not,
none when it is. -/
def statusCheck (code : Nat) : T → Response → List Str :=
  fun _ r => if r.StatusCode = code then [] else ["unexpected status".toList]

/-- The assertion "the status code is `code`", reporting a failure when it is
not. -/
def statusIs (code : Nat) : ResponseAssertion :=
  reporting (statusCheck code)

/-- A response with status 200 and body stream 7. -/
def exampleResponse : Response :=
  { StatusCode := 200, Body := 7 }

/-- A reader without a `Close` method, such as a `strings.Reader`. -/
def exampleReader : Reader :=
  { data := "payload".toList, closer := none }

/-- A reader with a `Close` method that returns `nil`, such as an open file. -/
def exampleFile : Reader :=
  { data := "payload".toList, closer := some none }

/-! ## Lemmas on `path.Clean` and `path.Join` -/

theorem NoAdj_append_right (l1 l2 : List Char) (h : NoAdj (l1 ++ l2)) : NoAdj l2 := by
  induction l1 with
  | nil => simpa using h
  | cons c l ih => exact ih h.2

theorem NoAdj_push (pushed out : List Char) (hp : ∀ x ∈ pushed, x ≠ '/') (h : NoAdj out) :
    NoAdj (pushed ++ out) := by
  induction pushed with
  | nil => simpa using h
  | cons c l ih =>
    refine ⟨fun hc => absurd hc (hp c (List.mem_cons_self _ _)), ?_⟩
    exact ih (fun x hx => hp x (List.mem_cons_of_mem _ hx))

theorem copyElem_spec (rest out : List Char) :
    ∃ pushed, (copyElem rest out).2 = pushed ++ out ∧ (∀ x ∈ pushed, x ≠ '/') ∧
      (copyElem rest out).1.length + pushed.length = rest.length := by
  induction rest generalizing out with
  | nil => exact ⟨[], by simp [copyElem]⟩
  | cons c t ih =>
    by_cases hc : c = '/'
    · exact ⟨[], by simp [copyElem, hc]⟩
    · obtain ⟨pushed, h1, h2, h3⟩ := ih (c :: out)
      refine ⟨pushed ++ [c], ?_, ?_, ?_⟩
      · simp [copyElem, hc, h1]
      · intro x hx
        rcases List.mem_append.1 hx with hx | hx
        · exact h2 x hx
        · simp at hx; exact hx ▸ hc
      · simp [copyElem, hc]; omega

theorem backtrack_spec (base : List Char) :
    ∀ top : List Char, top ≠ [] →
      ∃ pre c top1, top = pre ++ c :: top1 ∧
        backtrack base.length (top ++ base) = top1 ++ base ∧ (top1 = [] ∨ c = '/') := by
  intro top
  induction top with
  | nil => intro h; exact absurd rfl h
  | cons c t ih =>
    intro _
    by_cases ht : t = []
    · subst ht
      exact ⟨[], c, [], rfl, by simp [backtrack], Or.inl rfl⟩
    · have hlen : (t ++ base).length > base.length := by
        have : 0 < t.length := List.length_pos.2 ht
        simp; omega
      by_cases hc : c = '/'
      · exact ⟨[], c, t, rfl, by simp [backtrack, hc], Or.inr hc⟩
      · obtain ⟨pre, c1, top1, h1, h2, h3⟩ := ih ht
        refine ⟨c :: pre, c1, top1, by simp [h1], ?_, h3⟩
        have : backtrack base.length (c :: t ++ base) = backtrack base.length (t ++ base) := by
          show backtrack base.length (c :: (t ++ base)) = _
          rw [backtrack]
          simp only [hlen, hc, ne_eq, not_false_eq_true, and_self, if_true]
        rw [this, h2]

theorem CleanInv_head (rooted : Bool) (out : List Char) (dotdot : Nat)
    (h : CleanInv rooted out dotdot) (hs : out.head? = some '/') : out = ['/'] := by
  obtain ⟨top, base, rfl, _, hr, hn, ht, _⟩ := h
  cases top with
  | nil =>
    cases rooted with
    | true => simpa using hr rfl
    | false => exact absurd (by simpa using hs) (hn rfl)
  | cons c t => exact absurd (by simpa using hs) ht

theorem CleanInv_backtrack (rooted : Bool) (out : List Char) (dotdot : Nat)
    (h : CleanInv rooted out dotdot) (hl : out.length > dotdot) :
    CleanInv rooted (backtrack dotdot out) dotdot := by
  obtain ⟨top, base, rfl, hb, hr, hn, ht, ha⟩ := h
  have htop : top ≠ [] := by
    rintro rfl
    simp at hl; omega
  obtain ⟨pre, c, top1, h1, h2, h3⟩ := backtrack_spec base top htop
  subst hb
  rw [h2]
  subst h1
  have ha1 : NoAdj (c :: (top1 ++ base)) := by
    have := NoAdj_append_right pre (c :: top1 ++ base) (by simpa using ha)
    simpa using this
  refine ⟨top1, base, rfl, rfl, hr, hn, ?_, ha1.2⟩
  rcases h3 with h3 | h3
  · simp [h3]
  · intro hh
    cases top1 with
    | nil => simp at hh
    | cons d t => exact ha1.1 h3 (by simpa using hh)

theorem CleanInv_dotdot (out : List Char) (dotdot : Nat) (h : CleanInv false out dotdot) :
    CleanInv false ('.' :: '.' :: (if out.length > 0 then '/' :: out else out))
      ('.' :: '.' :: (if out.length > 0 then '/' :: out else out)).length := by
  have hh : out.head? ≠ some '/' := fun hs => by
    have := CleanInv_head false out dotdot h hs
    obtain ⟨top, base, h0, _, _, hn, ht, _⟩ := h
    cases top with
    | nil =>
      simp at h0
      exact hn rfl (by rw [← h0, this]; rfl)
    | cons c t =>
      rw [h0] at hs
      exact ht (by simpa using hs)
  obtain ⟨_, _, _, _, _, _, _, ha⟩ := h
  refine ⟨[], _, by simp, rfl, by simp, by simp, by simp, ?_⟩
  split
  · exact ⟨by simp, by simp, fun _ => hh, ha⟩
  · exact ⟨by simp, by simp, ha⟩

theorem CleanInv_elem (rooted : Bool) (c : Char) (t out : List Char) (dotdot : Nat)
    (h : CleanInv rooted out dotdot) (hc : c ≠ '/') :
    CleanInv rooted
      (copyElem (c :: t)
        (if (rooted = true ∧ out.length ≠ 1) ∨ (rooted = false ∧ out.length ≠ 0) then '/' :: out
          else out)).2 dotdot := by
  obtain ⟨pushed, h1, h2, _⟩ := copyElem_spec t
    (c :: (if (rooted = true ∧ out.length ≠ 1) ∨ (rooted = false ∧ out.length ≠ 0)
      then '/' :: out else out))
  have hcopy : ∀ o, copyElem (c :: t) o = copyElem t (c :: o) := fun o => by
    simp [copyElem, hc]
  rw [hcopy, h1]
  have hhead := CleanInv_head rooted out dotdot h
  obtain ⟨top, base, rfl, hb, hr, hn, ht, ha⟩ := h
  have hp : ∀ x ∈ pushed ++ [c], x ≠ '/' := by
    intro x hx
    rcases List.mem_append.1 hx with hx | hx
    · exact h2 x hx
    · simp at hx; exact hx ▸ hc
  have hne : (pushed ++ [c]).head? ≠ some '/' := by
    intro hh
    cases hpc : pushed ++ [c] with
    | nil => simp at hpc
    | cons d l =>
      rw [hpc] at hh hp
      exact hp d (List.mem_cons_self _ _) (by simpa using hh)
  split
  · rename_i hcond
    refine ⟨pushed ++ [c] ++ '/' :: top, base, by simp, hb, hr, hn, ?_, ?_⟩
    · cases hpc : pushed ++ [c] with
      | nil => simp at hpc
      | cons d l =>
        rw [hpc] at hne
        simpa using hne
    · have : pushed ++ c :: '/' :: (top ++ base) = (pushed ++ [c]) ++ ('/' :: (top ++ base)) := by
        simp
      rw [this]
      refine NoAdj_push _ _ hp ⟨fun _ hs => ?_, ha⟩
      have h3 := hhead hs
      rcases hcond with ⟨hr1, hl⟩ | ⟨hr1, hl⟩
      · rw [h3] at hl; exact hl rfl
      · cases top with
        | nil =>
          simp at h3
          exact hn hr1 (by rw [h3]; rfl)
        | cons d l => exact ht (by simpa using hs)
  · refine ⟨pushed ++ [c] ++ top, base, by simp, hb, hr, hn, ?_, ?_⟩
    · cases hpc : pushed ++ [c] with
      | nil => simp at hpc
      | cons d l =>
        rw [hpc] at hne
        simpa using hne
    · have : pushed ++ c :: (top ++ base) = (pushed ++ [c]) ++ (top ++ base) := by simp
      rw [this]
      exact NoAdj_push _ _ hp ha

theorem cleanLoop_inv (rooted : Bool) :
    ∀ (fuel : Nat) (rest out : List Char) (dotdot : Nat), CleanInv rooted out dotdot →
      ∃ dd, CleanInv rooted (cleanLoop rooted fuel rest out dotdot) dd := by
  intro fuel
  induction fuel with
  | zero => intro rest out dotdot h; exact ⟨dotdot, by simpa [cleanLoop] using h⟩
  | succ n ih =>
    intro rest out dotdot h
    cases rest with
    | nil => exact ⟨dotdot, by simpa [cleanLoop] using h⟩
    | cons c t =>
      rw [cleanLoop]
      split
      · exact ih _ _ _ h
      · split
        · exact ih _ _ _ h
        · split
          · split
            · exact ih _ _ _ (CleanInv_backtrack _ _ _ h (by assumption))
            · split
              · rename_i hr
                subst hr
                exact ih _ _ _ (CleanInv_dotdot _ _ h)
              · exact ih _ _ _ h
          · rename_i hc _ _
            exact ih _ _ _ (CleanInv_elem rooted c t out dotdot h hc)

theorem copyElem_length_le (c : Char) (t out : List Char) (hc : c ≠ '/') :
    (copyElem (c :: t) out).1.length ≤ t.length := by
  obtain ⟨pushed, _, _, h⟩ := copyElem_spec t (c :: out)
  have : copyElem (c :: t) out = copyElem t (c :: out) := by simp [copyElem, hc]
  rw [this]
  omega

/-- The loop of `path.Clean` never runs out of fuel: fuel beyond the length of
the unread input does not change the result. -/
theorem cleanLoop_fuel (rooted : Bool) :
    ∀ (fuel extra : Nat) (rest out : List Char) (dotdot : Nat), rest.length ≤ fuel →
      cleanLoop rooted (fuel + extra) rest out dotdot = cleanLoop rooted fuel rest out dotdot := by
  intro fuel
  induction fuel with
  | zero =>
    intro extra rest out dotdot h
    have : rest = [] := List.length_eq_zero.1 (Nat.le_zero.1 h)
    subst this
    cases extra <;> simp [cleanLoop]
  | succ n ih =>
    intro extra rest out dotdot h
    cases rest with
    | nil =>
      rw [Nat.succ_add]
      simp [cleanLoop]
    | cons c t =>
      have ht : t.length ≤ n := by simpa using h
      have htt : t.tail.length ≤ n := by
        rw [List.length_tail]
        omega
      rw [Nat.succ_add]
      simp only [cleanLoop]
      split
      · exact ih _ _ _ _ ht
      · split
        · exact ih _ _ _ _ ht
        · split
          · split
            · exact ih _ _ _ _ htt
            · split
              · exact ih _ _ _ _ htt
              · exact ih _ _ _ _ htt
          · rename_i hc _ _
            exact ih _ _ _ _ (le_trans (copyElem_length_le c t _ hc) ht)

/-- The result of `path.Clean` ends in a slash only if it is the root `/`. -/
theorem Clean_trailing_slash (path : Str) (h : (Clean path).getLast? = some '/') :
    Clean path = ['/'] := by
  unfold Clean at h ⊢
  by_cases hp : path = []
  · simp [hp] at h
  · simp only [hp, if_false] at h ⊢
    generalize hrooted : decide (path.head? = some '/') = rooted at h ⊢
    have hinit : CleanInv rooted (if rooted = true then ['/'] else [])
        (if rooted = true then 1 else 0) := by
      cases rooted with
      | true => exact ⟨[], ['/'], rfl, rfl, fun _ => rfl, by simp, by simp, by simp [NoAdj]⟩
      | false => exact ⟨[], [], rfl, rfl, by simp, by simp, by simp, by simp [NoAdj]⟩
    obtain ⟨dd, hinv⟩ := cleanLoop_inv rooted
      (if rooted = true then path.tail else path).length
      (if rooted = true then path.tail else path) _ _ hinit
    revert h hinv
    generalize cleanLoop rooted _ _ _ _ = out
    intro h hinv
    by_cases hl : out.length = 0
    · simp [hl] at h
    · simp only [hl, if_false] at h ⊢
      rw [List.getLast?_reverse] at h
      rw [CleanInv_head rooted out dd hinv h]
      rfl

/-- The result of `path.Join` ends in a slash only if it is the root `/`. -/
theorem Join_trailing_slash (elem : List Str) (h : (Join elem).getLast? = some '/') :
    Join elem = ['/'] := by
  unfold Join at h ⊢
  by_cases hs : (elem.map List.length).sum = 0
  · simp [hs] at h
  · simp only [hs, if_false] at h ⊢
    exact Clean_trailing_slash _ h

/-! ## Lemmas on sequences of options -/

theorem foldl_bind_fatal (opts : List RequestOption) (m : Str) :
    opts.foldl (fun acc o => Outcome.bind acc o) (Outcome.fatal m) = Outcome.fatal m := by
  induction opts with
  | nil => rfl
  | cons o os ih => simpa [List.foldl, Outcome.bind] using ih

theorem foldl_bind_panic (opts : List RequestOption) (m : Str) :
    opts.foldl (fun acc o => Outcome.bind acc o) (Outcome.panic m) = Outcome.panic m := by
  induction opts with
  | nil => rfl
  | cons o os ih => simpa [List.foldl, Outcome.bind] using ih

theorem applyInOrder_nil (req : HttpRequest) : applyInOrder [] req = .ok req := rfl

theorem applyInOrder_cons (o : RequestOption) (opts : List RequestOption) (req : HttpRequest) :
    applyInOrder (o :: opts) req = (o req).bind (applyInOrder opts) := by
  unfold applyInOrder
  have h : (Outcome.ok req).bind o = o req := rfl
  rw [List.foldl_cons, h]
  cases o req with
  | ok v => rfl
  | fatal m => exact foldl_bind_fatal opts m
  | panic m => exact foldl_bind_panic opts m

theorem CombineRequestOptions_eq_applyInOrder (opts : List RequestOption) (req : HttpRequest) :
    CombineRequestOptions opts req = applyInOrder opts req := by
  induction opts generalizing req with
  | nil => rfl
  | cons o os ih =>
    rw [applyInOrder_cons, CombineRequestOptions]
    cases h : o req with
    | ok v => simpa [Outcome.bind] using ih v
    | fatal m => rfl
    | panic m => rfl

theorem set_of_getElem? (s : Store) (req : Nat) (v : HttpRequest) (h : s[req]? = some v) :
    s.set req v = s := by
  apply List.ext_getElem?
  intro i
  by_cases hi : req = i
  · subst hi
    rw [List.getElem?_set_self (List.getElem?_eq_some.1 h).1, h]
  · rw [List.getElem?_set_ne hi]

theorem rangeOpts_eq (opts : List RequestOption) (req : Nat) :
    ∀ (s : Store) (v : HttpRequest), s[req]? = some v →
      rangeOpts opts req s = (applyInOrder opts v).map (fun v1 => s.set req v1) := by
  induction opts with
  | nil =>
    intro s v h
    simp [rangeOpts, applyInOrder_nil, Outcome.map, set_of_getElem? s req v h]
  | cons o os ih =>
    intro s v h
    have hrun : RequestOption.run o req s = (o v).map (fun v1 => s.set req v1) := by
      unfold RequestOption.run
      rw [h]
    rw [rangeOpts, applyInOrder_cons, hrun]
    cases o v with
    | ok v1 =>
      have hlt : req < s.length := (List.getElem?_eq_some.1 h).1
      show rangeOpts os req (s.set req v1) = _
      rw [ih (s.set req v1) v1 (List.getElem?_set_self hlt)]
      show _ = Outcome.map _ (applyInOrder os v1)
      cases applyInOrder os v1 <;> simp [Outcome.map, List.set_set]
    | fatal m => rfl
    | panic m => rfl

theorem rangeOpts_fresh (opts : List RequestOption) (s : Store) (v : HttpRequest) :
    rangeOpts opts s.length (s ++ [v]) = (applyInOrder opts v).map (fun v1 => s ++ [v1]) := by
  rw [rangeOpts_eq opts s.length (s ++ [v]) v (by simp)]
  cases applyInOrder opts v <;> simp [Outcome.map]

/-- A request built by the package holds a fresh request whose value its recipe
rebuilds, in a new cell of the store, whenever it is invoked. -/
theorem Produced_recipe (t : T) (c : Request) (s1 : Store) (h : Produced t c s1) :
    ∃ v, (∀ s, c.copy s = .ok (s.length, s ++ [v])) ∧ c.r + 1 = s1.length ∧
      s1[c.r]? = some v := by
  induction h with
  | request method opts s c s1 h =>
    unfold T.Request makeRequest at h
    cases hn : httpNewRequest method t.URL with
    | error e => simp [hn] at h
    | ok v0 =>
      simp only [hn, rangeOpts_fresh] at h
      cases ha : applyInOrder opts v0 with
      | ok v =>
        simp only [ha, Outcome.map, Outcome.ok.injEq, Prod.mk.injEq] at h
        obtain ⟨rfl, rfl⟩ := h
        refine ⟨v, fun s0 => ?_, by simp, by simp⟩
        simp [hn, rangeOpts_fresh, ha, Outcome.map]
      | fatal m => simp [ha, Outcome.map] at h
      | panic m => simp [ha, Outcome.map] at h
  | clone r s0 opts s c s1 _ h ih =>
    obtain ⟨vr, hcopy, _, _⟩ := ih
    unfold Request.Clone makeRequest at h
    simp only [hcopy, rangeOpts_fresh] at h
    cases ha : applyInOrder opts vr with
    | ok v =>
      simp only [ha, Outcome.map, Outcome.ok.injEq, Prod.mk.injEq] at h
      obtain ⟨rfl, rfl⟩ := h
      refine ⟨v, fun s0 => ?_, by simp, by simp⟩
      simp [hcopy, rangeOpts_fresh, ha, Outcome.map]
    | fatal m => simp [ha, Outcome.map] at h
    | panic m => simp [ha, Outcome.map] at h

/-- The clone of a request whose recipe builds `vr`: a new cell holding `opts`
applied to `vr`. -/
theorem Clone_of_recipe (r : Request) (vr : HttpRequest)
    (hcopy : ∀ s, r.copy s = .ok (s.length, s ++ [vr])) (opts : List RequestOption) (s : Store) :
    (r.Clone opts s).map (fun x => (x.1.r, x.2)) =
      (applyInOrder opts vr).map (fun v => (s.length, s ++ [v])) := by
  unfold Request.Clone makeRequest
  simp only [hcopy, rangeOpts_fresh]
  cases applyInOrder opts vr <;> simp [Outcome.map]

theorem map_eq_ok {α β : Type} (f : α → β) (x : Outcome α) (y : β)
    (h : x.map f = .ok y) : ∃ a, x = .ok a ∧ f a = y := by
  cases x with
  | ok a => exact ⟨a, rfl, by simpa [Outcome.map] using h⟩
  | fatal m => simp [Outcome.map] at h
  | panic m => simp [Outcome.map] at h

theorem Clone_ok_of_recipe (r : Request) (vr : HttpRequest)
    (hcopy : ∀ s, r.copy s = .ok (s.length, s ++ [vr])) (opts : List RequestOption) (s : Store)
    (c : Request) (s1 : Store) (h : r.Clone opts s = .ok (c, s1)) :
    ∃ v, applyInOrder opts vr = .ok v ∧ c.r = s.length ∧ s1 = s ++ [v] := by
  have h2 := Clone_of_recipe r vr hcopy opts s
  rw [h] at h2
  obtain ⟨v, hv, he⟩ := map_eq_ok _ _ _ h2.symm
  simp only [Prod.mk.injEq] at he
  exact ⟨v, hv, he.1.symm, he.2.symm⟩

theorem Clone_of_recipe_ok (r : Request) (vr v : HttpRequest)
    (hcopy : ∀ s, r.copy s = .ok (s.length, s ++ [vr])) (opts : List RequestOption)
    (hv : applyInOrder opts vr = .ok v) (s : Store) :
    ∃ c, r.Clone opts s = .ok (c, s ++ [v]) ∧ c.r = s.length := by
  have h2 := Clone_of_recipe r vr hcopy opts s
  rw [hv] at h2
  obtain ⟨a, ha, he⟩ := map_eq_ok _ _ _ h2
  simp only [Prod.mk.injEq] at he
  refine ⟨a.1, ?_, he.1⟩
  rw [ha, ← he.2]

theorem getElem?_fresh (s : Store) (v : HttpRequest) : (s ++ [v])[s.length]? = some v := by
  rw [List.getElem?_append_right (le_refl _), Nat.sub_self]
  rfl

/-- The normal return of `Path` on a segment whose last byte is `last`. -/
theorem Path_of_getLast (req : HttpRequest) (elem : Str) (last : Char)
    (hl : elem.getLast? = some last) :
    Path elem req = .ok (req.withPath
      (if last = '/' ∧ Join [req.URL.Path, elem] ≠ ['/'] then Join [req.URL.Path, elem] ++ ['/']
        else Join [req.URL.Path, elem])) := by
  unfold Path HttpRequest.withPath
  simp only [hl]
  split <;> rfl

theorem Path_isOk (req : HttpRequest) (elem : Str) : (Path elem req).isOk = true ↔ elem ≠ [] := by
  cases hl : elem.getLast? with
  | none =>
    have he := List.getLast?_eq_none_iff.1 hl
    subst he
    simp [Path, Outcome.isOk]
  | some last =>
    have he : elem ≠ [] := fun h => by simp [h] at hl
    rw [Path_of_getLast req elem last hl]
    simp [Outcome.isOk, he]

/-! ## Lemmas on printing and parsing a plain URL -/

theorem IndexByte_none (s : Str) (c : Char) (h : IndexByte s c = none) : c ∉ s := by
  induction s with
  | nil => simp
  | cons b t ih =>
    by_cases hb : b = c
    · simp [IndexByte, hb] at h
    · simp only [IndexByte, hb, if_false, Option.map_eq_none'] at h
      intro hmem
      rcases List.mem_cons.1 hmem with h1 | h1
      · exact hb h1.symm
      · exact ih h h1

theorem IndexByte_some (s : Str) (c : Char) :
    ∀ m, IndexByte s c = some m →
      s = s.take m ++ c :: s.drop (m + 1) ∧ c ∉ s.take m ∧
      Count s c = Count (s.drop (m + 1)) c + 1 := by
  induction s with
  | nil => intro m h; simp [IndexByte] at h
  | cons b t ih =>
    intro m h
    by_cases hb : b = c
    · simp only [IndexByte, hb, if_true, Option.some.injEq] at h
      subst h
      subst hb
      simp [Count]
    · simp only [IndexByte, hb, if_false, Option.map_eq_some'] at h
      obtain ⟨k, hk, rfl⟩ := h
      obtain ⟨h1, h2, h3⟩ := ih k hk
      refine ⟨?_, ?_, ?_⟩
      · simp only [List.take_succ_cons, List.drop_succ_cons, List.cons_append]
        rw [← h1]
      · simp only [List.take_succ_cons, List.mem_cons, not_or]
        exact ⟨fun h => hb h.symm, h2⟩
      · simp only [Count, hb, if_false, List.drop_succ_cons]
        exact h3

theorem isLetter_range (c : Char) (h : isLetter c = true) :
    (97 ≤ c.toNat ∧ c.toNat ≤ 122) ∨ (65 ≤ c.toNat ∧ c.toNat ≤ 90) := by
  simpa [isLetter] using h

theorem isDigit_range (c : Char) (h : isDigit c = true) : 48 ≤ c.toNat ∧ c.toNat ≤ 57 := by
  simpa [isDigit] using h

theorem isLowerLetter_range (c : Char) (h : isLowerLetter c = true) :
    97 ≤ c.toNat ∧ c.toNat ≤ 122 := by
  simpa [isLowerLetter] using h

theorem ne_of_toNat_ne (c d : Char) (h : c.toNat ≠ d.toNat) : c ≠ d := by
  rintro rfl
  exact h rfl


theorem plainHostChar_toNat (c : Char) (h : plainHostChar c = true) :
    (97 ≤ c.toNat ∧ c.toNat ≤ 122) ∨ (65 ≤ c.toNat ∧ c.toNat ≤ 90) ∨
      (48 ≤ c.toNat ∧ c.toNat ≤ 57) ∨ c.toNat = 45 ∨ c.toNat = 46 := by
  simp only [plainHostChar, Bool.decide_or, Bool.or_eq_true, decide_eq_true_eq] at h
  rcases h with h | h | h | h
  · rcases isLetter_range c h with h | h
    · exact Or.inl h
    · exact Or.inr (Or.inl h)
  · exact Or.inr (Or.inr (Or.inl (isDigit_range c h)))
  · subst h; decide
  · subst h; decide

theorem plainPathChar_toNat (c : Char) (h : plainPathChar c = true) :
    (97 ≤ c.toNat ∧ c.toNat ≤ 122) ∨ (65 ≤ c.toNat ∧ c.toNat ≤ 90) ∨
      (48 ≤ c.toNat ∧ c.toNat ≤ 57) ∨ c.toNat = 45 ∨ c.toNat = 95 ∨ c.toNat = 46 ∨
      c.toNat = 126 ∨ c.toNat = 47 := by
  simp only [plainPathChar, Bool.decide_or, Bool.or_eq_true, decide_eq_true_eq] at h
  rcases h with h | h | h | h | h | h | h
  · rcases isLetter_range c h with h | h
    · exact Or.inl h
    · exact Or.inr (Or.inl h)
  · exact Or.inr (Or.inr (Or.inl (isDigit_range c h)))
  all_goals subst h; decide

theorem plainQueryChar_toNat (c : Char) (h : plainQueryChar c = true) :
    (97 ≤ c.toNat ∧ c.toNat ≤ 122) ∨ (65 ≤ c.toNat ∧ c.toNat ≤ 90) ∨
      (48 ≤ c.toNat ∧ c.toNat ≤ 57) ∨ c.toNat = 45 ∨ c.toNat = 95 ∨ c.toNat = 46 ∨
      c.toNat = 126 ∨ c.toNat = 61 ∨ c.toNat = 38 ∨ c.toNat = 43 ∨ c.toNat = 37 := by
  simp only [plainQueryChar, Bool.decide_or, Bool.or_eq_true, decide_eq_true_eq] at h
  rcases h with h | h | h | h | h | h | h | h | h | h
  · rcases isLetter_range c h with h | h
    · exact Or.inl h
    · exact Or.inr (Or.inl h)
  · exact Or.inr (Or.inr (Or.inl (isDigit_range c h)))
  all_goals subst h; decide

theorem escape_id (should : Char → Bool) (s : Str) (h : ∀ c ∈ s, should c = false) :
    escape should s = s := by
  induction s with
  | nil => rfl
  | cons c t ih =>
    rw [escape, h c (List.mem_cons_self _ _)]
    simp only [Bool.false_eq_true, if_false]
    rw [ih (fun d hd => h d (List.mem_cons_of_mem _ hd))]

theorem unescape_path_id (s : Str) (h : '%' ∉ s) : unescape .path s = some s := by
  induction s with
  | nil => rfl
  | cons c t ih =>
    have hc : c ≠ '%' := fun hc => h (by simp [hc])
    have ht : '%' ∉ t := fun ht => h (List.mem_cons_of_mem _ ht)
    unfold unescape
    simp only [hc, if_false]
    rw [ih ht]
    simp

theorem unescape_host_id (s : Str) (h : '%' ∉ s) (h2 : ∀ c ∈ s, shouldEscapeHost c = false) :
    unescape .host s = some s := by
  induction s with
  | nil => rfl
  | cons c t ih =>
    have hc : c ≠ '%' := fun hc => h (by simp [hc])
    have ht : '%' ∉ t := fun ht => h (List.mem_cons_of_mem _ ht)
    unfold unescape
    simp only [hc, if_false]
    rw [ih ht (fun d hd => h2 d (List.mem_cons_of_mem _ hd))]
    simp [h2 c (List.mem_cons_self _ _)]

theorem IndexByte_of_not_mem (s : Str) (c : Char) (h : c ∉ s) : IndexByte s c = none := by
  induction s with
  | nil => rfl
  | cons b t ih =>
    have hb : b ≠ c := fun hb => h (by simp [hb])
    have ht : c ∉ t := fun ht => h (List.mem_cons_of_mem _ ht)
    simp [IndexByte, hb, ih ht]

theorem IndexByte_append (A B : Str) (c : Char) (h : c ∉ A) :
    IndexByte (A ++ c :: B) c = some A.length := by
  induction A with
  | nil => simp [IndexByte]
  | cons b t ih =>
    have hb : b ≠ c := fun hb => h (by simp [hb])
    have ht : c ∉ t := fun ht => h (List.mem_cons_of_mem _ ht)
    simp [IndexByte, hb, ih ht]

theorem LastIndexByte_of_not_mem (s : Str) (c : Char) (h : c ∉ s) :
    LastIndexByte s c = none := by
  induction s with
  | nil => rfl
  | cons b t ih =>
    have hb : b ≠ c := fun hb => h (by simp [hb])
    have ht : c ∉ t := fun ht => h (List.mem_cons_of_mem _ ht)
    simp [LastIndexByte, hb, ih ht]

theorem LastIndexByte_append (A B : Str) (c : Char) (h : c ∉ B) :
    LastIndexByte (A ++ c :: B) c = some A.length := by
  induction A with
  | nil => simp [LastIndexByte, LastIndexByte_of_not_mem B c h]
  | cons b t ih => simp [LastIndexByte, ih]

theorem Count_of_not_mem (s : Str) (c : Char) (h : c ∉ s) : Count s c = 0 := by
  induction s with
  | nil => rfl
  | cons b t ih =>
    have hb : b ≠ c := fun hb => h (by simp [hb])
    have ht : c ∉ t := fun ht => h (List.mem_cons_of_mem _ ht)
    simp [Count, hb, ih ht]

theorem getSchemeLoop_letters (rest : Str) :
    ∀ (S pre : Str), (∀ c ∈ S, isLetter c = true) → pre ++ S ≠ [] →
      getSchemeLoop (pre ++ S ++ ':' :: rest) pre.length (S ++ ':' :: rest) =
        some (pre ++ S, rest) := by
  intro S
  induction S with
  | nil =>
    intro pre _ hne
    have hlen : pre.length ≠ 0 := by
      intro h0
      exact hne (by simpa using List.length_eq_zero.1 h0)
    have h1 : isLetter ':' = false := by decide
    have h2 : isDigit ':' = false := by decide
    simp [getSchemeLoop, h1, h2, hlen]
  | cons c t ih =>
    intro pre hS hne
    have hc : isLetter c = true := hS c (List.mem_cons_self _ _)
    have := ih (pre ++ [c]) (fun d hd => hS d (List.mem_cons_of_mem _ hd)) (by simp)
    simp only [List.append_assoc, List.singleton_append, List.length_append,
      List.length_singleton] at this
    rw [List.cons_append, getSchemeLoop]
    simp only [hc, if_true]
    simpa using this

theorem ToLower_id (s : Str) (h : ∀ c ∈ s, isLowerLetter c = true) : ToLower s = s := by
  unfold ToLower
  conv => rhs; rw [← List.map_id s]
  apply List.map_congr_left
  intro c hc
  have := isLowerLetter_range c (h c hc)
  have h2 : ¬ (65 ≤ c.toNat ∧ c.toNat ≤ 90) := by omega
  simp [h2]


theorem hostByte_toNat (c : Char) (h : plainHostChar c = true ∨ c = ':') :
    (97 ≤ c.toNat ∧ c.toNat ≤ 122) ∨ (65 ≤ c.toNat ∧ c.toNat ≤ 90) ∨
      (48 ≤ c.toNat ∧ c.toNat ≤ 57) ∨ c.toNat = 45 ∨ c.toNat = 46 ∨ c.toNat = 58 := by
  rcases h with h | h
  · have hc := plainHostChar_toNat c h
    omega
  · subst h; decide

theorem hostByte_noescape (c : Char) (h : plainHostChar c = true ∨ c = ':') :
    shouldEscapeHost c = false := by
  rcases h with h | h
  · simp only [plainHostChar, Bool.decide_or, Bool.or_eq_true, decide_eq_true_eq] at h
    rcases h with h | h | h | h
    · simp [shouldEscapeHost, h]
    · simp [shouldEscapeHost, h]
    · subst h; decide
    · subst h; decide
  · subst h; decide

theorem pathByte_noescape (c : Char) (h : plainPathChar c = true) :
    shouldEscapePath c = false := by
  simp only [plainPathChar, Bool.decide_or, Bool.or_eq_true, decide_eq_true_eq] at h
  rcases h with h | h | h | h | h | h | h
  · simp [shouldEscapePath, h]
  · simp [shouldEscapePath, h]
  all_goals subst h; decide

theorem plainHost_spec (H : Str) (h : plainHost H = true) :
    H ≠ [] ∧ (∀ c ∈ H, plainHostChar c = true ∨ c = ':') ∧
    ((':' ∉ H) ∨ ∃ name port, H = name ++ ':' :: port ∧ ':' ∉ port ∧ port ≠ [] ∧
      (∀ c ∈ port, isDigit c = true)) := by
  unfold plainHost at h
  cases hi : IndexByte H ':' with
  | none =>
    rw [hi] at h
    simp only [Bool.and_eq_true, decide_eq_true_eq, List.all_eq_true] at h
    exact ⟨h.1, fun c hc => Or.inl (h.2 c hc), Or.inl (IndexByte_none H ':' hi)⟩
  | some i =>
    rw [hi] at h
    simp only [Bool.and_eq_true, decide_eq_true_eq, List.all_eq_true] at h
    obtain ⟨⟨⟨_, h2⟩, h3⟩, h4⟩ := h
    obtain ⟨h5, _, _⟩ := IndexByte_some H ':' i hi
    have hport : ':' ∉ H.drop (i + 1) := fun hm => absurd (h4 _ hm) (by decide)
    refine ⟨?_, ?_, Or.inr ⟨H.take i, H.drop (i + 1), h5, hport, h3, h4⟩⟩
    · intro hnil
      rw [hnil] at hi
      simp [IndexByte] at hi
    · intro c hc
      rw [h5] at hc
      rcases List.mem_append.1 hc with hc | hc
      · exact Or.inl (h2 c hc)
      · rcases List.mem_cons.1 hc with hc | hc
        · exact Or.inr hc
        · have hd := h4 c hc
          exact Or.inl (by simp [plainHostChar, hd])

theorem isSuffixOf_singleton (c : Char) (s : Str) (h : [c].isSuffixOf s = true) :
    s.getLast? = some c := by
  rw [List.isSuffixOf_iff_suffix] at h
  obtain ⟨t, rfl⟩ := h
  exact List.getLast?_concat t

theorem parseHost_plain (H : Str) (h : plainHost H = true) : parseHost H = some H := by
  obtain ⟨hne, hall, hport⟩ := plainHost_spec H h
  have hesc : ∀ c ∈ H, shouldEscapeHost c = false := fun c hc => hostByte_noescape c (hall c hc)
  have hpct : '%' ∉ H := fun hm => by
    have := hostByte_toNat _ (hall _ hm)
    simp at this
  have hun := unescape_host_id H hpct hesc
  have hbr : ['['].isPrefixOf H = false := by
    cases H with
    | nil => rfl
    | cons c t =>
      have hc : c ≠ '[' := fun hc => by
        have := hostByte_toNat c (hall c (List.mem_cons_self _ _))
        rw [hc] at this
        simp at this
      have hc2 : ¬ '[' = c := fun hh => hc hh.symm
      simp [List.isPrefixOf, hc2]
  unfold parseHost
  rw [hbr]
  simp only [Bool.false_eq_true, if_false]
  rcases hport with hp | ⟨name, port, rfl, hp1, hp2, hp3⟩
  · rw [LastIndexByte_of_not_mem H ':' hp]
    exact hun
  · rw [LastIndexByte_append name port ':' hp1]
    have hv : validOptionalPort (List.drop name.length (name ++ ':' :: port)) = true := by
      rw [List.drop_left]
      simp [validOptionalPort, List.all_eq_true]
      exact hp3
    simp only [hv, Bool.true_eq_false, if_false]
    exact hun

theorem parseAuthority_plain (H : Str) (h : plainHost H = true) : parseAuthority H = some H := by
  obtain ⟨_, hall, _⟩ := plainHost_spec H h
  have hat : '@' ∉ H := fun hm => by
    have := hostByte_toNat _ (hall _ hm)
    simp at this
  unfold parseAuthority
  rw [LastIndexByte_of_not_mem H '@' hat]
  exact parseHost_plain H h

theorem removeEmptyPort_plain (H : Str) (h : plainHost H = true) : removeEmptyPort H = H := by
  obtain ⟨_, hall, hport⟩ := plainHost_spec H h
  have hbr : ']' ∉ H := fun hm => by
    have := hostByte_toNat _ (hall _ hm)
    simp at this
  unfold removeEmptyPort
  rw [LastIndexByte_of_not_mem H ']' hbr]
  rcases hport with hp | ⟨name, port, rfl, hp1, hp2, hp3⟩
  · rw [LastIndexByte_of_not_mem H ':' hp]
    simp
  · rw [LastIndexByte_append name port ':' hp1]
    have hsuf : [':'].isSuffixOf (name ++ ':' :: port) = false := by
      cases hs : [':'].isSuffixOf (name ++ ':' :: port) with
      | false => rfl
      | true =>
        have hl := isSuffixOf_singleton ':' _ hs
        have hl2 : (name ++ ':' :: port).getLast? = port.getLast? := by
          cases port with
          | nil => exact absurd rfl hp2
          | cons d ds =>
            rw [List.getLast?_append, List.getLast?_cons_cons]
            cases hg : (d :: ds).getLast? with
            | none => exact absurd (List.getLast?_eq_none_iff.1 hg) (by simp)
            | some x => rfl
        rw [hl2] at hl
        exact absurd (List.mem_of_getLast?_eq_some hl) hp1
    simp [TrimSuffix, hsuf]


/-- The facts a plain URL gives about its four fields. -/
theorem plainURL_spec (u : URL) (h : plainURL u = true) :
    u.Scheme ≠ [] ∧ (∀ c ∈ u.Scheme, isLowerLetter c = true) ∧ plainHost u.Host = true ∧
    (u.Path = [] ∨ (u.Path.head? = some '/' ∧ ∀ c ∈ u.Path, plainPathChar c = true)) ∧
    (∀ c ∈ u.RawQuery, plainQueryChar c = true) := by
  simp only [plainURL, Bool.and_eq_true, Bool.or_eq_true, decide_eq_true_eq,
    List.all_eq_true] at h
  obtain ⟨⟨⟨⟨h1, h2⟩, h3⟩, h4⟩, h5⟩ := h
  exact ⟨h1, h2, h3, h4, h5⟩

theorem String_plain (u : URL) (h : plainURL u = true) :
    u.String = u.Scheme ++ ':' :: '/' :: '/' ::
      (u.Host ++ u.Path ++ (if u.RawQuery ≠ [] then '?' :: u.RawQuery else [])) := by
  obtain ⟨hS, _, hH, hP, _⟩ := plainURL_spec u h
  obtain ⟨hHne, hHall, _⟩ := plainHost_spec u.Host hH
  have hesc : escape shouldEscapeHost u.Host = u.Host :=
    escape_id _ _ (fun c hc => hostByte_noescape c (hHall c hc))
  have hpath : u.EscapedPath = u.Path := by
    unfold URL.EscapedPath
    rcases hP with hP | ⟨hP1, hP2⟩
    · simp [hP, escape]
    · have hstar : u.Path ≠ ['*'] := fun hs => by
        rw [hs] at hP1
        simp at hP1
      simp only [hstar, if_false]
      exact escape_id _ _ (fun c hc => pathByte_noescape c (hP2 c hc))
  have hhead : ¬ (u.Path ≠ [] ∧ u.Path.head? ≠ some '/' ∧ u.Host ≠ []) := by
    rintro ⟨h1, h2, _⟩
    rcases hP with hP | ⟨hP1, _⟩
    · exact h1 hP
    · exact h2 hP1
  unfold URL.String
  simp only [hpath, hesc, hS, hHne, hhead, ne_eq, not_false_eq_true, if_true, if_false,
    true_or, List.length_append]
  have hhead2 : ¬ (¬ u.Path = [] ∧ ¬ u.Path.head? = some '/' ∧ True) := by
    rintro ⟨h1, h2, _⟩
    exact hhead ⟨h1, h2, hHne⟩
  have hlen : ¬ ((u.Scheme ++ [':'] ++ ['/', '/'] ++ u.Host).length = 0 ∧
      ':' ∈ (Cut u.Path '/').1) := by
    rintro ⟨h0, _⟩
    simp at h0
  simp only [hhead2, hlen, if_false]
  split <;> simp


theorem Cut_append (A B : Str) (c : Char) (h : c ∉ A) : Cut (A ++ c :: B) c = (A, B) := by
  unfold Cut
  rw [IndexByte_append A B c h]
  have e : A ++ c :: B = (A ++ [c]) ++ B := by simp
  have h1 : List.take A.length (A ++ c :: B) = A := List.take_left _ _
  have h2 : List.drop (A.length + 1) (A ++ c :: B) = B := by
    rw [e]
    exact List.drop_left' (by simp)
  simp only [h1, h2]

theorem parseURL_plain (u : URL) (h : plainURL u = true) :
    parseURL (u.Scheme ++ ':' :: '/' :: '/' ::
      (u.Host ++ u.Path ++ (if u.RawQuery ≠ [] then '?' :: u.RawQuery else []))) = some u := by
  obtain ⟨hS, hS2, hH, hP, hQ⟩ := plainURL_spec u h
  obtain ⟨hHne, hHall, _⟩ := plainHost_spec u.Host hH
  obtain ⟨S, H, P, Q⟩ := u
  simp only at hS hS2 hH hP hQ hHne hHall ⊢
  -- the bytes of the four fields
  have bS : ∀ c ∈ S, 97 ≤ c.toNat ∧ c.toNat ≤ 122 := fun c hc => isLowerLetter_range c (hS2 c hc)
  have bH := fun c (hc : c ∈ H) => hostByte_toNat c (hHall c hc)
  have bP : ∀ c ∈ P, (97 ≤ c.toNat ∧ c.toNat ≤ 122) ∨ (65 ≤ c.toNat ∧ c.toNat ≤ 90) ∨
      (48 ≤ c.toNat ∧ c.toNat ≤ 57) ∨ c.toNat = 45 ∨ c.toNat = 95 ∨ c.toNat = 46 ∨
      c.toNat = 126 ∨ c.toNat = 47 := by
    intro c hc
    rcases hP with hP | ⟨_, hP2⟩
    · rw [hP] at hc; simp at hc
    · exact plainPathChar_toNat c (hP2 c hc)
  have bQ := fun c (hc : c ∈ Q) => plainQueryChar_toNat c (hQ c hc)
  have nmem : ∀ (d : Char) (l : Str), (∀ c ∈ l, c.toNat ≠ d.toNat) → d ∉ l :=
    fun d l hl hm => hl d hm rfl
  have qH : '?' ∉ H := nmem _ _ (fun c hc => by have := bH c hc; simp; omega)
  have qP : '?' ∉ P := nmem _ _ (fun c hc => by have := bP c hc; simp; omega)
  have qQ : '?' ∉ Q := nmem _ _ (fun c hc => by have := bQ c hc; simp; omega)
  have sH : '/' ∉ H := nmem _ _ (fun c hc => by have := bH c hc; simp; omega)
  have pP : '%' ∉ P := nmem _ _ (fun c hc => by have := bP c hc; simp; omega)
  -- no control byte
  have hctl : stringContainsCTLByte
      (S ++ ':' :: '/' :: '/' :: (H ++ P ++ (if Q ≠ [] then '?' :: Q else []))) = false := by
    unfold stringContainsCTLByte
    rw [List.any_eq_false]
    intro c hc
    have hb : 32 ≤ c.toNat ∧ c.toNat ≠ 127 := by
      simp only [List.mem_append, List.mem_cons] at hc
      rcases hc with hc | hc | hc | hc | (hc | hc) | hc
      · have := bS c hc; omega
      · subst hc; decide
      · subst hc; decide
      · subst hc; decide
      · have := bH c hc; omega
      · have := bP c hc; omega
      · split at hc
        · rcases List.mem_cons.1 hc with hc | hc
          · subst hc; decide
          · have := bQ c hc; omega
        · simp at hc
    simp
    omega
  have hstar : S ++ ':' :: '/' :: '/' :: (H ++ P ++ (if Q ≠ [] then '?' :: Q else [])) ≠ ['*'] := by
    intro hh
    have := congrArg List.length hh
    simp at this
    omega
  have hscheme : getScheme
      (S ++ ':' :: '/' :: '/' :: (H ++ P ++ (if Q ≠ [] then '?' :: Q else []))) =
      some (S, '/' :: '/' :: (H ++ P ++ (if Q ≠ [] then '?' :: Q else []))) := by
    have := getSchemeLoop_letters ('/' :: '/' :: (H ++ P ++ (if Q ≠ [] then '?' :: Q else [])))
      S [] (fun c hc => by
        have := bS c hc
        simp [isLetter]
        omega) (by simpa using hS)
    simpa [getScheme] using this
  have hlow : ToLower S = S := ToLower_id S hS2
  -- the query is cut off at the first question mark
  have hforced : ([('?' : Char)].isSuffixOf
        ('/' :: '/' :: (H ++ P ++ (if Q ≠ [] then '?' :: Q else []))) &&
      decide (Count ('/' :: '/' :: (H ++ P ++ (if Q ≠ [] then '?' :: Q else []))) '?' = 1))
      = false := by
    by_cases hq : Q = []
    · have : '?' ∉ '/' :: '/' :: (H ++ P ++ (if Q ≠ [] then '?' :: Q else [])) := by
        simp [hq, qH, qP]
      rw [Count_of_not_mem _ _ this]
      simp
    · have : [('?' : Char)].isSuffixOf
          ('/' :: '/' :: (H ++ P ++ (if Q ≠ [] then '?' :: Q else []))) = false := by
        cases hs : [('?' : Char)].isSuffixOf
            ('/' :: '/' :: (H ++ P ++ (if Q ≠ [] then '?' :: Q else []))) with
        | false => rfl
        | true =>
          have hl := isSuffixOf_singleton '?' _ hs
          simp only [hq, ne_eq, not_false_eq_true, if_true] at hl
          have hl2 : ('/' :: '/' :: (H ++ P ++ '?' :: Q)).getLast? = Q.getLast? := by
            have e : '/' :: '/' :: (H ++ P ++ '?' :: Q) = ('/' :: '/' :: (H ++ P) ++ ['?']) ++ Q := by
              simp
            rw [e, List.getLast?_append]
            cases hg : Q.getLast? with
            | none => exact absurd (List.getLast?_eq_none_iff.1 hg) hq
            | some x => rfl
          rw [hl2] at hl
          exact absurd (List.mem_of_getLast?_eq_some hl) qQ
      rw [this]
      rfl
  have hcut : Cut ('/' :: '/' :: (H ++ P ++ (if Q ≠ [] then '?' :: Q else []))) '?' =
      ('/' :: '/' :: (H ++ P), Q) := by
    unfold Cut
    by_cases hq : Q = []
    · have : '?' ∉ '/' :: '/' :: (H ++ P ++ (if Q ≠ [] then '?' :: Q else [])) := by
        simp [hq, qH, qP]
      rw [IndexByte_of_not_mem _ _ this]
      simp [hq]
    · have hn : '?' ∉ '/' :: '/' :: (H ++ P) := by simp [qH, qP]
      have e : '/' :: '/' :: (H ++ P ++ (if Q ≠ [] then '?' :: Q else [])) =
          ('/' :: '/' :: (H ++ P)) ++ '?' :: Q := by simp [hq]
      rw [e]
      exact Cut_append _ _ _ hn
  -- the authority is the host, the rest is the path
  have hauth : (match IndexByte (H ++ P) '/' with
      | some i => (H ++ P).take i
      | none => H ++ P) = H := by
    rcases hP with hP | ⟨hP1, _⟩
    · subst hP
      simp [IndexByte_of_not_mem H '/' sH]
    · obtain ⟨P1, rfl⟩ := List.head?_eq_some_iff.1 hP1
      rw [IndexByte_append H P1 '/' sH]
      simp
  have hrest : (match IndexByte (H ++ P) '/' with
      | some i => (H ++ P).drop i
      | none => []) = P := by
    rcases hP with hP | ⟨hP1, _⟩
    · subst hP
      simp [IndexByte_of_not_mem H '/' sH]
    · obtain ⟨P1, rfl⟩ := List.head?_eq_some_iff.1 hP1
      rw [IndexByte_append H P1 '/' sH]
      simp
  unfold parseURL
  simp only [hctl, hstar, hscheme, hlow, hforced, hcut, Bool.false_eq_true, if_false]
  have h1 : ['/'].isPrefixOf ('/' :: '/' :: (H ++ P)) = true := by simp [List.isPrefixOf]
  have h2 : ['/', '/'].isPrefixOf ('/' :: '/' :: (H ++ P)) = true := by simp [List.isPrefixOf]
  simp only [h1, h2, Bool.true_eq_false, false_and, if_false, hS, ne_eq, not_false_eq_true,
    true_or, and_self, if_true, List.drop_succ_cons, List.drop_zero, hauth, hrest,
    parseAuthority_plain H hH, unescape_path_id P pP]


theorem Parse_String_plain (u : URL) (h : plainURL u = true) : Parse u.String = some u := by
  have hp := parseURL_plain u h
  rw [String_plain u h]
  obtain ⟨_, hS2, hH, hP, hQ⟩ := plainURL_spec u h
  obtain ⟨_, hHall, _⟩ := plainHost_spec u.Host hH
  have hhash : '#' ∉ u.Scheme ++ ':' :: '/' :: '/' ::
      (u.Host ++ u.Path ++ (if u.RawQuery ≠ [] then '?' :: u.RawQuery else [])) := by
    intro hc
    simp only [List.mem_append, List.mem_cons] at hc
    rcases hc with hc | hc | hc | hc | (hc | hc) | hc
    · have := isLowerLetter_range _ (hS2 _ hc); simp at this
    · exact absurd hc (by decide)
    · exact absurd hc (by decide)
    · exact absurd hc (by decide)
    · have := hostByte_toNat _ (hHall _ hc); simp at this
    · rcases hP with hP | ⟨_, hP2⟩
      · rw [hP] at hc; simp at hc
      · have := plainPathChar_toNat _ (hP2 _ hc); simp at this
    · split at hc
      · rcases List.mem_cons.1 hc with hc | hc
        · exact absurd hc (by decide)
        · have := plainQueryChar_toNat _ (hQ _ hc); simp at this
      · simp at hc
  unfold Parse
  have hcut : Cut (u.Scheme ++ ':' :: '/' :: '/' ::
      (u.Host ++ u.Path ++ (if u.RawQuery ≠ [] then '?' :: u.RawQuery else []))) '#' =
      (u.Scheme ++ ':' :: '/' :: '/' ::
        (u.Host ++ u.Path ++ (if u.RawQuery ≠ [] then '?' :: u.RawQuery else [])), []) := by
    unfold Cut
    rw [IndexByte_of_not_mem _ _ hhash]
  rw [hcut]
  simp only [hp, if_true]

/-- For a valid method and a plain target, `http.NewRequest` returns the
request with that method and that URL. -/
theorem httpNewRequest_plain (method : Str) (u : URL) (hne : method ≠ [])
    (hm : validMethod method = true) (h : plainURL u = true) :
    httpNewRequest method u = .ok { Method := method, URL := u, Body := none } := by
  obtain ⟨_, _, hH, _, _⟩ := plainURL_spec u h
  unfold httpNewRequest
  simp only [hne, if_false, hm, Bool.true_eq_false, Parse_String_plain u h,
    removeEmptyPort_plain u.Host hH]

/-! ## The claims -/

/-- C1: the request held by `r.Clone(opts)` is the request that one invocation
of the recipe `r.copy` returns, with `opts` applied to it in list order (and
`Clone` fails exactly as the recipe or the options do).  Example: the base
built with `Path("a")` keeps the path `a`, its clone with `Path("b")` has the
path `a/b`. -/
theorem Clone_holds_copy_with_opts :
    (∀ (r : Request) (opts : List RequestOption) (s : Store) (req : Nat) (s1 : Store)
        (v : HttpRequest), r.copy s = .ok (req, s1) → s1[req]? = some v →
        match applyInOrder opts v with
        | .ok v1 => ∃ c, r.Clone opts s = .ok (c, s1.set req v1) ∧ c.r = req ∧
            (s1.set req v1)[c.r]? = some v1
        | .fatal m => r.Clone opts s = .fatal m
        | .panic m => r.Clone opts s = .panic m) ∧
    (∀ (r : Request) (opts : List RequestOption) (s : Store) (m : Str),
        (r.copy s = .fatal m → r.Clone opts s = .fatal m) ∧
        (r.copy s = .panic m → r.Clone opts s = .panic m)) ∧
    (exampleT.Get [Path "a".toList] []).bind (fun b =>
        (b.1.Clone [Path "b".toList] b.2).map (fun c => (pathAt c.2 b.1.r, pathAt c.2 c.1.r)))
      = .ok (some "a".toList, some "a/b".toList) := by
  refine ⟨?_, ?_, by decide⟩
  · intro r opts s req s1 v hcopy hv
    have hlt : req < s1.length := (List.getElem?_eq_some.1 hv).1
    unfold Request.Clone makeRequest
    simp only [hcopy]
    rw [rangeOpts_eq opts req s1 v hv]
    cases applyInOrder opts v with
    | ok v1 => exact ⟨_, rfl, rfl, List.getElem?_set_self hlt⟩
    | fatal m => rfl
    | panic m => rfl
  · intro r opts s m
    constructor <;> intro h <;> simp [Request.Clone, makeRequest, h]

/-- Witness of C1 at the base request `exampleT.Get(Path("a"))` cloned with
`Path("b")`. -/
theorem Clone_holds_copy_with_opts_witness :
    exampleBase.1.copy exampleBase.2 =
        .ok (1, exampleBase.2 ++ [{ exampleApi with URL := { exampleT.URL with Path := "a".toList } }]) ∧
    (exampleBase.2 ++ [{ exampleApi with URL := { exampleT.URL with Path := "a".toList } }])[1]? =
        some { exampleApi with URL := { exampleT.URL with Path := "a".toList } } ∧
    ∃ c, exampleBase.1.Clone [Path "b".toList] exampleBase.2 =
        .ok (c, (exampleBase.2 ++
          [{ exampleApi with URL := { exampleT.URL with Path := "a".toList } }]).set 1
            { exampleApi with URL := { exampleT.URL with Path := "a/b".toList } }) ∧ c.r = 1 ∧
      ((exampleBase.2 ++
          [{ exampleApi with URL := { exampleT.URL with Path := "a".toList } }]).set 1
            { exampleApi with URL := { exampleT.URL with Path := "a/b".toList } })[c.r]? =
        some { exampleApi with URL := { exampleT.URL with Path := "a/b".toList } } :=
  ⟨by decide, by decide,
    Clone_holds_copy_with_opts.1 exampleBase.1 [Path "b".toList] exampleBase.2 1 _
      { exampleApi with URL := { exampleT.URL with Path := "a".toList } } (by decide) (by decide)⟩

/-- C2: building clones has no effect on their source.  For a request `r` of
the package that lives in the store, after `r.Clone(opts1)` and then
`r.Clone(opts2)`: the request `r` holds is unchanged, the recipe of `r` still
builds the same request, the first clone is not changed by building the second,
and it holds the same request when the two clones are built in the other
order. -/
theorem Clone_leaves_source_unchanged (t : T) (r : Request) (s0 : Store)
    (hr : Produced t r s0) (s : Store) (hlive : r.r < s.length)
    (opts1 opts2 : List RequestOption) (c1 : Request) (s1 : Store) (c2 : Request) (s2 : Store)
    (h1 : r.Clone opts1 s = .ok (c1, s1)) (h2 : r.Clone opts2 s1 = .ok (c2, s2)) :
    (s1[r.r]? = s[r.r]? ∧ s2[r.r]? = s[r.r]?) ∧
    (∃ v, ∀ σ ∈ [s, s1, s2], r.copy σ = .ok (σ.length, σ ++ [v])) ∧
    s2[c1.r]? = s1[c1.r]? ∧
    (∃ cb sb c1b s1b, r.Clone opts2 s = .ok (cb, sb) ∧ r.Clone opts1 sb = .ok (c1b, s1b) ∧
      sb[r.r]? = s[r.r]? ∧ s1b[c1b.r]? = s1[c1.r]?) := by
  obtain ⟨vr, hcopy, _, _⟩ := Produced_recipe t r s0 hr
  obtain ⟨v1, hv1, hc1, rfl⟩ := Clone_ok_of_recipe r vr hcopy opts1 s c1 _ h1
  obtain ⟨v2, hv2, hc2, rfl⟩ := Clone_ok_of_recipe r vr hcopy opts2 _ c2 _ h2
  obtain ⟨cb, hcb, _⟩ := Clone_of_recipe_ok r vr v2 hcopy opts2 hv2 s
  obtain ⟨c1b, hc1b, hc1br⟩ := Clone_of_recipe_ok r vr v1 hcopy opts1 hv1 (s ++ [v2])
  refine ⟨⟨?_, ?_⟩, ⟨vr, fun σ _ => hcopy σ⟩, ?_, cb, _, c1b, _, hcb, hc1b, ?_, ?_⟩
  · rw [List.getElem?_append_left hlive]
  · rw [List.getElem?_append_left (by simp; omega), List.getElem?_append_left hlive]
  · rw [hc1, List.getElem?_append_left (by simp)]
  · rw [List.getElem?_append_left hlive]
  · rw [hc1br, hc1, List.getElem?_append_right (le_refl _),
      List.getElem?_append_right (le_refl _), Nat.sub_self, Nat.sub_self]

/-- Witness of C2: the base `exampleT.Get(Path("a"))` cloned with `Path("b")`
and then with `Path("c/")`. -/
theorem Clone_leaves_source_unchanged_witness :
    (pathAt exampleCloneB.2 exampleBase.1.r = pathAt exampleBase.2 exampleBase.1.r ∧
      pathAt exampleCloneC.2 exampleBase.1.r = some "a".toList ∧
      pathAt exampleCloneC.2 exampleCloneB.1.r = some "a/b".toList ∧
      pathAt exampleCloneC.2 exampleCloneC.1.r = some "a/c/".toList) ∧
    ((exampleCloneB.2[exampleBase.1.r]? = exampleBase.2[exampleBase.1.r]? ∧
        exampleCloneC.2[exampleBase.1.r]? = exampleBase.2[exampleBase.1.r]?) ∧
      (∃ v, ∀ σ ∈ [exampleBase.2, exampleCloneB.2, exampleCloneC.2],
        exampleBase.1.copy σ = .ok (σ.length, σ ++ [v])) ∧
      exampleCloneC.2[exampleCloneB.1.r]? = exampleCloneB.2[exampleCloneB.1.r]? ∧
      (∃ cb sb c1b s1b, exampleBase.1.Clone [Path "c/".toList] exampleBase.2 = .ok (cb, sb) ∧
        exampleBase.1.Clone [Path "b".toList] sb = .ok (c1b, s1b) ∧
        sb[exampleBase.1.r]? = exampleBase.2[exampleBase.1.r]? ∧
        s1b[c1b.r]? = exampleCloneB.2[exampleCloneB.1.r]?)) :=
  ⟨by decide,
    Clone_leaves_source_unchanged exampleT exampleBase.1 exampleBase.2
      (Produced.request "GET".toList [Path "a".toList] [] _ _ rfl)
      exampleBase.2 (by decide) [Path "b".toList] [Path "c/".toList]
      exampleCloneB.1 exampleCloneB.2 exampleCloneC.1 exampleCloneC.2 rfl rfl⟩

/-- C3: after `Path(segment)` with a non-empty segment the path ends in a slash
exactly when the segment ends in a slash or the path is the root `/`.  On the
path `/api`, `Path("users/")` gives `/api/users/` and `Path("users")` gives
`/api/users`. -/
theorem Path_trailing_slash :
    (∀ (req : HttpRequest) (elem : Str), elem ≠ [] →
      ∃ req1, Path elem req = .ok req1 ∧
        (req1.URL.Path.getLast? = some '/' ↔
          (elem.getLast? = some '/' ∨ req1.URL.Path = ['/']))) ∧
    (Path "users/".toList exampleApi).map (fun r => r.URL.Path) = .ok "/api/users/".toList ∧
    (Path "users".toList exampleApi).map (fun r => r.URL.Path) = .ok "/api/users".toList := by
  refine ⟨?_, by decide, by decide⟩
  intro req elem he
  cases hl : elem.getLast? with
  | none => exact absurd (List.getLast?_eq_none_iff.1 hl) he
  | some last =>
    refine ⟨_, Path_of_getLast req elem last hl, ?_⟩
    simp only [HttpRequest.withPath, Option.some.injEq]
    by_cases hc : last = '/' ∧ Join [req.URL.Path, elem] ≠ ['/']
    · simp [hc.1, hc.2]
    · simp only [hc, if_false]
      constructor
      · intro h
        exact Or.inr (Join_trailing_slash _ h)
      · rintro (h | h)
        · have : Join [req.URL.Path, elem] = ['/'] := by
            by_contra hne
            exact hc ⟨h, hne⟩
          rw [this]; rfl
        · rw [h]; rfl

/-- Witness of C3 at the request `GET http://example.test/api` and the segment
`users/`. -/
theorem Path_trailing_slash_witness :
    "users/".toList ≠ [] ∧
    ∃ req1, Path "users/".toList exampleApi = .ok req1 ∧
      (req1.URL.Path.getLast? = some '/' ↔
        ("users/".toList.getLast? = some '/' ∨ req1.URL.Path = ['/'])) :=
  ⟨by decide, Path_trailing_slash.1 exampleApi "users/".toList (by decide)⟩

/-- C4, counterexample: on the path `/api` the option `Path("users")` gives
`/api/users`, while `urlJoin("/api", "users")` is `api/users`; and on the empty
path `Path("/")` gives the root `/`, while `urlJoin("", "/")` with the slash
re-appended is `//`. -/
theorem Path_differs_from_urlJoin :
    ((Path "users".toList exampleApi).map (fun r => r.URL.Path) = .ok "/api/users".toList ∧
      pathByUrlJoin exampleApi.URL.Path "users".toList = "api/users".toList ∧
      (Path "users".toList exampleApi).map (fun r => r.URL.Path) ≠
        .ok (pathByUrlJoin exampleApi.URL.Path "users".toList)) ∧
    ((Path "/".toList exampleFresh).map (fun r => r.URL.Path) = .ok "/".toList ∧
      pathByUrlJoin exampleFresh.URL.Path "/".toList = "//".toList ∧
      (Path "/".toList exampleFresh).map (fun r => r.URL.Path) ≠
        .ok (pathByUrlJoin exampleFresh.URL.Path "/".toList)) := by
  decide

/-- C4, amended: for a non-empty segment, `Path` sets the path to
`path.Join` of the current path and the segment, which is `path.Clean` of the
two joined by one slash (of the segment alone when the current path is empty),
with a slash appended when the segment ends in one and the joined path is not
the root; nothing else of the request changes. -/
theorem Path_is_path_Join (req : HttpRequest) (elem : Str) (he : elem ≠ []) :
    Path elem req = .ok (req.withPath
      (if elem.getLast? = some '/' ∧ Join [req.URL.Path, elem] ≠ ['/']
        then Join [req.URL.Path, elem] ++ ['/'] else Join [req.URL.Path, elem])) ∧
    Join [req.URL.Path, elem] =
      Clean (if req.URL.Path = [] then elem else req.URL.Path ++ '/' :: elem) := by
  constructor
  · cases hl : elem.getLast? with
    | none => exact absurd (List.getLast?_eq_none_iff.1 hl) he
    | some last =>
      rw [Path_of_getLast req elem last hl]
      simp only [Option.some.injEq]
  · have hlen : 0 < elem.length := List.length_pos.2 he
    have hsize : ¬ (List.map List.length [req.URL.Path, elem]).sum = 0 := by
      simp only [List.map, List.sum_cons, List.sum_nil]
      omega
    unfold Join
    simp only [hsize, if_false]
    by_cases hp : req.URL.Path = []
    · simp [joinBuf, hp, he]
    · have : 0 < req.URL.Path.length := List.length_pos.2 hp
      simp [joinBuf, hp, this]

/-- Witness of C4 (amended) at the request `GET http://example.test/api` and
the segment `users/`. -/
theorem Path_is_path_Join_witness :
    "users/".toList ≠ [] ∧
    (Path "users/".toList exampleApi = .ok (exampleApi.withPath
      (if "users/".toList.getLast? = some '/' ∧
          Join [exampleApi.URL.Path, "users/".toList] ≠ ['/']
        then Join [exampleApi.URL.Path, "users/".toList] ++ ['/']
        else Join [exampleApi.URL.Path, "users/".toList])) ∧
    Join [exampleApi.URL.Path, "users/".toList] =
      Clean (if exampleApi.URL.Path = [] then "users/".toList
        else exampleApi.URL.Path ++ '/' :: "users/".toList)) :=
  ⟨by decide, Path_is_path_Join exampleApi "users/".toList (by decide)⟩

/-- C5: applying `Path(segment)` fails exactly when the segment is the empty
string: `Path("")` gives no modified request, every other segment does. -/
theorem Path_fails_iff_empty :
    (∀ req : HttpRequest, (Path [] req).isOk = false) ∧
    (∀ (req : HttpRequest) (elem : Str), (Path elem req).isOk = false ↔ elem = []) ∧
    (∀ (req : HttpRequest) (elem : Str), (∃ req1, Path elem req = .ok req1) ↔ elem ≠ []) := by
  have key := Path_isOk
  refine ⟨fun req => ?_, fun req elem => ?_, fun req elem => ?_⟩
  · have := key req []
    cases h : (Path [] req).isOk with
    | true => simp [h] at this
    | false => rfl
  · have := key req elem
    cases h : (Path elem req).isOk with
    | true =>
      rw [h] at this
      simpa using this.1 rfl
    | false =>
      rw [h] at this
      simp only [true_iff]
      by_contra hne
      exact absurd (this.2 hne) (by simp)
  · rw [← key req elem]
    cases Path elem req <;> simp [Outcome.isOk]

/-- C6, the code at the failing input: `Path("")` indexes the empty segment at
`len(elem)-1` and ends in a run-time panic; the failure is not reported through
the test context. -/
theorem Path_empty_panics (req : HttpRequest) :
    Path [] req = .panic "index out of range [-1]".toList ∧
    (Path [] req).isPanic = true ∧ (Path [] req).isFatal = false := by
  refine ⟨rfl, rfl, rfl⟩

/-- C7: `URLParams(v)` sets the raw query to the old raw query directly
followed by the encoding of `v`; on an empty raw query this is the encoding of
`v`, and two applications give the two encodings one after the other with
nothing between them (`a=1` then `b=2` give `a=1b=2`). -/
theorem URLParams_appends_encoding :
    (∀ (req : HttpRequest) (v : Values),
      URLParams v req =
        .ok { req with URL := { req.URL with RawQuery := req.URL.RawQuery ++ v.Encode } }) ∧
    (∀ (req : HttpRequest) (v : Values),
      (URLParams v { req with URL := { req.URL with RawQuery := [] } }).map
        (fun r => r.URL.RawQuery) = .ok v.Encode) ∧
    (∀ (req : HttpRequest) (v w : Values),
      ((URLParams v req).bind (URLParams w)).map (fun r => r.URL.RawQuery) =
        .ok (req.URL.RawQuery ++ v.Encode ++ w.Encode)) ∧
    ((URLParams [("a".toList, ["1".toList])] exampleApi).bind
        (URLParams [("b".toList, ["2".toList])])).map (fun r => r.URL.RawQuery) =
      .ok "a=1b=2".toList := by
  refine ⟨fun req v => rfl, fun req v => ?_, fun req v w => rfl, by decide⟩
  simp [URLParams, Outcome.map]

/-- C8: `T.Request(method, opts)` creates a new request with
`http.NewRequest(method, t.URL.String(), nil)`, applies `opts` to it in list
order and returns a `Request` that points to it, in a new cell of the store; it
aborts the test when the request cannot be created (invalid method, or a base
URL whose text does not parse) and fails as the options do.  `Get`, `Head`,
`Post`, `Put`, `Patch` and `Delete` are `Request` with their method.  The new
request has the given method (`GET` for the empty one), no body, and the URL
parsed from the text of the base URL; for a plain base URL this is the base URL
itself.  Example: with target `http://example.test`,
`Get(Path("/items"), URLParams({limit: "1"}))` holds
`GET http://example.test/items?limit=1`.  A base path `api` becomes `/api`, an
empty port is dropped, and a host with a space aborts the test. -/
theorem T_Request_value :
    (∀ (t : T) (method : Str) (opts : List RequestOption) (s : Store),
      (t.Request method opts s).map (fun x => (x.1.r, x.2, x.2[x.1.r]?)) =
        match httpNewRequest method t.URL with
        | .error _ => .fatal "failed to create request".toList
        | .ok v => (applyInOrder opts v).map (fun v1 => (s.length, s ++ [v1], some v1))) ∧
    (∀ (t : T) (opts : List RequestOption) (s : Store),
      t.Get opts s = t.Request "GET".toList opts s ∧
      t.Head opts s = t.Request "HEAD".toList opts s ∧
      t.Post opts s = t.Request "POST".toList opts s ∧
      t.Put opts s = t.Request "PUT".toList opts s ∧
      t.Patch opts s = t.Request "PATCH".toList opts s ∧
      t.Delete opts s = t.Request "DELETE".toList opts s) ∧
    (∀ (method : Str) (target : URL) (v : HttpRequest),
      httpNewRequest method target = .ok v →
      v.Method = (if method = [] then "GET".toList else method) ∧ v.Body = none ∧
        ∃ u, Parse target.String = some u ∧
          v.URL = { Scheme := u.Scheme, Host := removeEmptyPort u.Host, Path := u.Path,
                    RawQuery := u.RawQuery }) ∧
    (∀ (t : T), plainURL t.URL = true →
      httpNewRequest "GET".toList t.URL =
        .ok { Method := "GET".toList, URL := t.URL, Body := none } ∧
      httpNewRequest "HEAD".toList t.URL =
        .ok { Method := "HEAD".toList, URL := t.URL, Body := none } ∧
      httpNewRequest "POST".toList t.URL =
        .ok { Method := "POST".toList, URL := t.URL, Body := none } ∧
      httpNewRequest "PUT".toList t.URL =
        .ok { Method := "PUT".toList, URL := t.URL, Body := none } ∧
      httpNewRequest "PATCH".toList t.URL =
        .ok { Method := "PATCH".toList, URL := t.URL, Body := none } ∧
      httpNewRequest "DELETE".toList t.URL =
        .ok { Method := "DELETE".toList, URL := t.URL, Body := none }) ∧
    (exampleT.Get [Path "/items".toList, URLParams [("limit".toList, ["1".toList])]] []).map
        (fun x => x.2[x.1.r]?) =
      .ok (some { Method := "GET".toList,
                  URL := { Scheme := "http".toList, Host := "example.test".toList,
                           Path := "/items".toList, RawQuery := "limit=1".toList },
                  Body := none }) ∧
    ((exampleNoSlash.Get [] []).map (fun x => pathAt x.2 x.1.r) = .ok (some "/api".toList) ∧
      (exampleEmptyPort.Get [] []).map (fun x => x.2[x.1.r]?.map (fun v => v.URL.Host)) =
        .ok (some "example.test".toList) ∧
      (exampleBadHost.Get [] []).map (fun x => x.1.r) =
        .fatal "failed to create request".toList ∧
      (exampleT.Request "G T".toList [] []).map (fun x => x.1.r) =
        .fatal "failed to create request".toList) := by
  refine ⟨fun t method opts s => ?_, fun t opts s => ⟨rfl, rfl, rfl, rfl, rfl, rfl⟩,
    fun method target v h => ?_, fun t ht => ?_, by decide, by decide⟩
  · unfold T.Request makeRequest
    cases httpNewRequest method t.URL with
    | error e => rfl
    | ok v =>
      simp only [rangeOpts_fresh]
      cases applyInOrder opts v with
      | ok v1 => simp [Outcome.map, getElem?_fresh]
      | fatal m => rfl
      | panic m => rfl
  · unfold httpNewRequest at h
    simp only at h
    generalize (if method = [] then "GET".toList else method) = m at h ⊢
    by_cases hv : validMethod m = false
    · simp [hv] at h
    · cases hp : Parse target.String with
      | none => simp [hv, hp] at h
      | some u =>
        have hv2 : validMethod m = true := by simpa using hv
        rw [hv2, hp] at h
        simp only [Bool.true_eq_false, if_false, Except.ok.injEq] at h
        subst h
        exact ⟨rfl, rfl, u, rfl, rfl⟩
  · exact ⟨httpNewRequest_plain _ _ (by decide) (by decide) ht,
      httpNewRequest_plain _ _ (by decide) (by decide) ht,
      httpNewRequest_plain _ _ (by decide) (by decide) ht,
      httpNewRequest_plain _ _ (by decide) (by decide) ht,
      httpNewRequest_plain _ _ (by decide) (by decide) ht,
      httpNewRequest_plain _ _ (by decide) (by decide) ht⟩

/-- Witness of C8 at the test context of a local test server,
`http://127.0.0.1:8080/api?v=1`, and at the request `GET http://example.test`. -/
theorem T_Request_value_witness :
    (plainURL exampleLocal.URL = true ∧
      httpNewRequest "GET".toList exampleLocal.URL =
        .ok { Method := "GET".toList, URL := exampleLocal.URL, Body := none }) ∧
    (httpNewRequest [] exampleT.URL = .ok exampleFresh ∧
      exampleFresh.Method = "GET".toList ∧ exampleFresh.Body = none ∧
      ∃ u, Parse exampleT.URL.String = some u ∧
        exampleFresh.URL = { Scheme := u.Scheme, Host := removeEmptyPort u.Host, Path := u.Path,
                             RawQuery := u.RawQuery }) :=
  ⟨⟨by decide, (T_Request_value.2.2.2.1 exampleLocal (by decide)).1⟩,
    ⟨rfl, T_Request_value.2.2.1 [] exampleT.URL exampleFresh rfl⟩⟩

/-- C9: a request built by `T.Request` or by `Clone` holds a request `v` that
its recipe rebuilds: every invocation of `copy` returns a new request equal to
`v`, two invocations return two distinct requests with this same value, and the
second leaves the first as it is. -/
theorem recipe_rebuilds_held_value (t : T) (r : Request) (s1 : Store)
    (h : Produced t r s1) :
    ∃ v, s1[r.r]? = some v ∧
      ∀ s, ∃ p1 s2 p2 s3, r.copy s = .ok (p1, s2) ∧ r.copy s2 = .ok (p2, s3) ∧
        s2[p1]? = some v ∧ s3[p2]? = some v ∧ s3[p1]? = some v ∧ p1 ≠ p2 := by
  obtain ⟨v, hcopy, _, hv⟩ := Produced_recipe t r s1 h
  refine ⟨v, hv, fun s => ⟨_, _, _, _, hcopy s, hcopy _, ?_, ?_, ?_, ?_⟩⟩
  · exact getElem?_fresh s v
  · exact getElem?_fresh _ v
  · rw [List.getElem?_append_left (by simp)]
    exact getElem?_fresh s v
  · simp

/-- Witness of C9 at the clone `exampleT.Get(Path("a")).Clone(Path("b"))`. -/
theorem recipe_rebuilds_held_value_witness :
    pathAt exampleCloneB.2 exampleCloneB.1.r = some "a/b".toList ∧
    ∃ v, exampleCloneB.2[exampleCloneB.1.r]? = some v ∧
      ∀ s, ∃ p1 s2 p2 s3, exampleCloneB.1.copy s = .ok (p1, s2) ∧
        exampleCloneB.1.copy s2 = .ok (p2, s3) ∧
        s2[p1]? = some v ∧ s3[p2]? = some v ∧ s3[p1]? = some v ∧ p1 ≠ p2 :=
  ⟨by decide,
    recipe_rebuilds_held_value exampleT exampleCloneB.1 exampleCloneB.2
      (Produced.clone exampleBase.1 exampleBase.2 [Path "b".toList] exampleBase.2 _ _
        (Produced.request "GET".toList [Path "a".toList] [] _ _ rfl) rfl)⟩

/-- C10: applying `CombineRequestOptions(opts)` to a request is applying the
members of `opts` one after another in list order; `CombineRequestOptions(f, g)`
is `f` then `g`, and `CombineRequestOptions()` leaves the request as it is. -/
theorem CombineRequestOptions_sequential :
    (∀ (opts : List RequestOption) (req : HttpRequest),
      CombineRequestOptions opts req = applyInOrder opts req) ∧
    (∀ (f g : RequestOption) (req : HttpRequest),
      CombineRequestOptions [f, g] req = (f req).bind g) ∧
    (∀ req : HttpRequest, CombineRequestOptions [] req = .ok req) := by
  refine ⟨CombineRequestOptions_eq_applyInOrder, fun f g req => ?_, fun req => rfl⟩
  simp only [CombineRequestOptions]
  cases f req with
  | ok v => cases h : g v <;> simp [Outcome.bind, h]
  | fatal m => rfl
  | panic m => rfl

/-! ## Lemmas on composition of options and assertions -/

theorem bind_assoc {α β γ : Type} (x : Outcome α) (f : α → Outcome β) (g : β → Outcome γ) :
    (x.bind f).bind g = x.bind (fun a => (f a).bind g) := by
  cases x <;> rfl

theorem applyInOrder_append (xs ys : List RequestOption) (req : HttpRequest) :
    applyInOrder (xs ++ ys) req = (applyInOrder xs req).bind (applyInOrder ys) := by
  induction xs generalizing req with
  | nil => rfl
  | cons o os ih =>
    rw [List.cons_append, applyInOrder_cons, applyInOrder_cons, bind_assoc]
    congr 1
    funext v
    exact ih v

theorem CombineRequestOptions_flatten (xs ys zs : List RequestOption) (req : HttpRequest) :
    CombineRequestOptions (xs ++ CombineRequestOptions ys :: zs) req =
      CombineRequestOptions (xs ++ ys ++ zs) req := by
  rw [CombineRequestOptions_eq_applyInOrder, CombineRequestOptions_eq_applyInOrder,
    applyInOrder_append, applyInOrder_append, applyInOrder_append, bind_assoc]
  congr 1
  funext v
  rw [applyInOrder_cons, CombineRequestOptions_eq_applyInOrder]

theorem foldl_assert_fatal (asserts : List ResponseAssertion) (t : T) (r : Response) (m : Str)
    (w : World) :
    asserts.foldl (fun acc a =>
      match acc with
      | (.ok _, w1) => a t r w1
      | (.fatal m, w1) => (.fatal m, w1)
      | (.panic m, w1) => (.panic m, w1)) (Outcome.fatal m, w) = (Outcome.fatal m, w) := by
  induction asserts with
  | nil => rfl
  | cons a l ih => exact ih

theorem foldl_assert_panic (asserts : List ResponseAssertion) (t : T) (r : Response) (m : Str)
    (w : World) :
    asserts.foldl (fun acc a =>
      match acc with
      | (.ok _, w1) => a t r w1
      | (.fatal m, w1) => (.fatal m, w1)
      | (.panic m, w1) => (.panic m, w1)) (Outcome.panic m, w) = (Outcome.panic m, w) := by
  induction asserts with
  | nil => rfl
  | cons a l ih => exact ih

theorem rangeAsserts_eq_assertInOrder (asserts : List ResponseAssertion) (t : T) (r : Response)
    (w : World) : rangeAsserts asserts t r w = assertInOrder asserts t r w := by
  induction asserts generalizing w with
  | nil => rfl
  | cons a l ih =>
    unfold assertInOrder
    rw [rangeAsserts, List.foldl_cons]
    show _ = List.foldl _ (a t r w) l
    rcases h : a t r w with ⟨o, w1⟩
    cases o with
    | ok u => exact ih w1
    | fatal m => exact (foldl_assert_fatal l t r m w1).symm
    | panic m => exact (foldl_assert_panic l t r m w1).symm

theorem CombineResponseAssertions_eq_rangeAsserts (asserts : List ResponseAssertion) (t : T)
    (r : Response) (w : World) :
    CombineResponseAssertions asserts t r w = rangeAsserts asserts t r w := by
  induction asserts generalizing w with
  | nil => rfl
  | cons a l ih =>
    rw [CombineResponseAssertions, rangeAsserts]
    rcases a t r w with ⟨o, w1⟩
    cases o with
    | ok u => exact ih w1
    | fatal m => rfl
    | panic m => rfl

/-- When the assertions of `pre` all return, the loop runs each of them once, in
order, and goes on with the rest in the world they left. -/
theorem rangeAsserts_append (pre rest : List ResponseAssertion) (t : T) (r : Response)
    (h : ∀ a ∈ pre, ∀ w1, (a t r w1).1 = .ok ()) (w : World) :
    rangeAsserts (pre ++ rest) t r w = rangeAsserts rest t r (worldAfter pre t r w) := by
  induction pre generalizing w with
  | nil => rfl
  | cons a l ih =>
    have ha := h a (List.mem_cons_self _ _) w
    rw [List.cons_append, rangeAsserts]
    rcases hw : a t r w with ⟨o, w1⟩
    rw [hw] at ha
    simp only at ha
    subst ha
    have hl : ∀ b ∈ l, ∀ w1, (b t r w1).1 = .ok () :=
      fun b hb => h b (List.mem_cons_of_mem _ hb)
    simp only [ih hl w1]
    unfold worldAfter
    rw [List.foldl_cons, hw]

theorem rangeAsserts_ok (asserts : List ResponseAssertion) (t : T) (r : Response)
    (h : ∀ a ∈ asserts, ∀ w1, (a t r w1).1 = .ok ()) (w : World) :
    rangeAsserts asserts t r w = (.ok (), worldAfter asserts t r w) := by
  have := rangeAsserts_append asserts [] t r h w
  rw [List.append_nil] at this
  rw [this]
  rfl

theorem reporting_returns (fs : List (T → Response → List Str)) (t : T) (r : Response) :
    ∀ a ∈ fs.map reporting, ∀ w1, (a t r w1).1 = .ok () := by
  intro a ha w1
  obtain ⟨f, _, rfl⟩ := List.mem_map.1 ha
  rfl

theorem worldAfter_reporting (fs : List (T → Response → List Str)) (t : T) (r : Response)
    (w : World) : worldAfter (fs.map reporting) t r w = w ++ reportsOf fs t r := by
  induction fs generalizing w with
  | nil => simp [worldAfter, reportsOf]
  | cons f l ih =>
    have : worldAfter (List.map reporting (f :: l)) t r w =
        worldAfter (List.map reporting l) t r (w ++ (f t r).map Event.report) := rfl
    rw [this, ih, reportsOf, List.append_assoc]

theorem count_close_reportsOf (fs : List (T → Response → List Str)) (t : T) (r : Response)
    (b : Nat) : (reportsOf fs t r).count (Event.close b) = 0 := by
  induction fs with
  | nil => rfl
  | cons f l ih =>
    rw [reportsOf, List.count_append, ih, Nat.add_zero]
    apply List.count_eq_zero.2
    intro hmem
    obtain ⟨x, _, hx⟩ := List.mem_map.1 hmem
    cases hx

/-- When the loop over `pre` returns in the run at hand and leaves `w1`, the
loop over `pre ++ rest` goes on with `rest` in `w1`. -/
theorem rangeAsserts_append_run (pre rest : List ResponseAssertion) (t : T) (r : Response) :
    ∀ (w : World) (u : Unit) (w1 : World), rangeAsserts pre t r w = (.ok u, w1) →
      rangeAsserts (pre ++ rest) t r w = rangeAsserts rest t r w1 := by
  induction pre with
  | nil =>
    intro w u w1 h
    simp only [rangeAsserts, Prod.mk.injEq] at h
    rw [List.nil_append, h.2]
  | cons a l ih =>
    intro w u w1 h
    rw [List.cons_append, rangeAsserts]
    rw [rangeAsserts] at h
    rcases hw : a t r w with ⟨o, w2⟩
    rw [hw] at h
    cases o with
    | ok v => exact ih w2 u w1 h
    | fatal m => simp at h
    | panic m => simp at h

/-- A run of the loop that does not return stops at a first assertion that
aborts or panics, after the assertions before it have returned. -/
theorem rangeAsserts_abort_split (asserts : List ResponseAssertion) (t : T) (r : Response) :
    ∀ w : World, (rangeAsserts asserts t r w).1.isOk = false →
      ∃ pre a post w1, asserts = pre ++ a :: post ∧ rangeAsserts pre t r w = (.ok (), w1) ∧
        (a t r w1).1.isOk = false ∧ rangeAsserts asserts t r w = a t r w1 := by
  induction asserts with
  | nil => intro w h; simp [rangeAsserts, Outcome.isOk] at h
  | cons a l ih =>
    intro w h
    rcases hw : a t r w with ⟨o, w2⟩
    cases o with
    | ok v =>
      have hl : rangeAsserts (a :: l) t r w = rangeAsserts l t r w2 := by
        rw [rangeAsserts, hw]
      rw [hl] at h
      obtain ⟨pre, b, post, w1, h1, h2, h3, h4⟩ := ih w2 h
      refine ⟨a :: pre, b, post, w1, by rw [h1]; rfl, ?_, h3, by rw [hl, h4]⟩
      rw [rangeAsserts, hw]
      exact h2
    | fatal m =>
      refine ⟨[], a, l, w, rfl, rfl, by rw [hw]; rfl, ?_⟩
      rw [rangeAsserts, hw]
    | panic m =>
      refine ⟨[], a, l, w, rfl, rfl, by rw [hw]; rfl, ?_⟩
      rw [rangeAsserts, hw]

/-! ## The claims on composition and on the response -/

/-- C11: composition of options is associative: `CombineRequestOptions` of
`CombineRequestOptions(a, b)` and `c`, of `a` and `CombineRequestOptions(b, c)`,
and of `a`, `b`, `c` have the same effect on every request; in general a
combined option inside a list acts as its members spliced into the list. -/
theorem CombineRequestOptions_assoc :
    (∀ (a b c : RequestOption) (req : HttpRequest),
      CombineRequestOptions [CombineRequestOptions [a, b], c] req =
        CombineRequestOptions [a, b, c] req ∧
      CombineRequestOptions [a, CombineRequestOptions [b, c]] req =
        CombineRequestOptions [a, b, c] req) ∧
    (∀ (xs ys zs : List RequestOption) (req : HttpRequest),
      CombineRequestOptions (xs ++ CombineRequestOptions ys :: zs) req =
        CombineRequestOptions (xs ++ ys ++ zs) req) := by
  refine ⟨fun a b c req => ⟨?_, ?_⟩, CombineRequestOptions_flatten⟩
  · exact CombineRequestOptions_flatten [] [a, b] [c] req
  · exact CombineRequestOptions_flatten [a] [b, c] [] req

/-- C12: `CombineResponseAssertions(asserts)` runs the members one after another
in list order on the same test context and response.  When the members return
(a failure reported without aborting is a return), every member runs exactly
once and the world is the one they leave in sequence; for members that report,
every report is there once, in list order, whether or not an earlier member
reported a failure. -/
theorem CombineResponseAssertions_sequential :
    (∀ (asserts : List ResponseAssertion) (t : T) (r : Response) (w : World),
      CombineResponseAssertions asserts t r w = assertInOrder asserts t r w) ∧
    (∀ (asserts : List ResponseAssertion) (t : T) (r : Response) (w : World),
      (∀ a ∈ asserts, ∀ w1, (a t r w1).1 = .ok ()) →
      CombineResponseAssertions asserts t r w = (.ok (), worldAfter asserts t r w)) ∧
    (∀ (fs : List (T → Response → List Str)) (t : T) (r : Response) (w : World),
      CombineResponseAssertions (fs.map reporting) t r w = (.ok (), w ++ reportsOf fs t r)) ∧
    CombineResponseAssertions [statusIs 404, statusIs 200, statusIs 500] exampleT
        exampleResponse [] =
      (.ok (), [Event.report "unexpected status".toList,
                Event.report "unexpected status".toList]) := by
  refine ⟨fun asserts t r w => ?_, fun asserts t r w h => ?_, fun fs t r w => ?_, by decide⟩
  · rw [CombineResponseAssertions_eq_rangeAsserts, rangeAsserts_eq_assertInOrder]
  · rw [CombineResponseAssertions_eq_rangeAsserts, rangeAsserts_ok asserts t r h]
  · rw [CombineResponseAssertions_eq_rangeAsserts,
      rangeAsserts_ok _ t r (reporting_returns fs t r), worldAfter_reporting]

/-- Witness of C12 at the assertions `statusIs(404)`, `statusIs(200)` on a
response with status 200. -/
theorem CombineResponseAssertions_sequential_witness :
    (∀ a ∈ [statusIs 404, statusIs 200], ∀ w1, (a exampleT exampleResponse w1).1 = .ok ()) ∧
    CombineResponseAssertions [statusIs 404, statusIs 200] exampleT exampleResponse [] =
      (.ok (), worldAfter [statusIs 404, statusIs 200] exampleT exampleResponse []) :=
  ⟨reporting_returns [statusCheck 404, statusCheck 200] exampleT exampleResponse,
    CombineResponseAssertions_sequential.2.1 [statusIs 404, statusIs 200] exampleT
      exampleResponse [] (reporting_returns [statusCheck 404, statusCheck 200] exampleT
        exampleResponse)⟩

/-- C13: when the assertions report failures without aborting, `Response.Assert`
runs each of them exactly once in list order, then calls `Close` on the body,
once and as the last thing, and returns the response it was called on. -/
theorem Assert_runs_all_then_closes :
    (∀ (r : Response) (t : T) (asserts : List ResponseAssertion) (w : World),
      (∀ a ∈ asserts, ∀ w1, (a t r w1).1 = .ok ()) →
      r.Assert t asserts w = (.ok r, worldAfter asserts t r w ++ [Event.close r.Body])) ∧
    (∀ (r : Response) (t : T) (fs : List (T → Response → List Str)) (w : World),
      r.Assert t (fs.map reporting) w =
        (.ok r, w ++ reportsOf fs t r ++ [Event.close r.Body]) ∧
      (r.Assert t (fs.map reporting) w).2.count (Event.close r.Body) =
        w.count (Event.close r.Body) + 1) ∧
    exampleResponse.Assert exampleT [statusIs 404, statusIs 200, statusIs 500] [] =
      (.ok exampleResponse, [Event.report "unexpected status".toList,
        Event.report "unexpected status".toList, Event.close 7]) := by
  have key : ∀ (r : Response) (t : T) (asserts : List ResponseAssertion) (w : World),
      (∀ a ∈ asserts, ∀ w1, (a t r w1).1 = .ok ()) →
      r.Assert t asserts w = (.ok r, worldAfter asserts t r w ++ [Event.close r.Body]) := by
    intro r t asserts w h
    unfold Response.Assert
    rw [rangeAsserts_ok asserts t r h]
    rfl
  refine ⟨key, fun r t fs w => ?_, by decide⟩
  have h := key r t (fs.map reporting) w (reporting_returns fs t r)
  rw [worldAfter_reporting] at h
  refine ⟨h, ?_⟩
  rw [h]
  simp only [List.count_append, count_close_reportsOf, List.count_singleton_self, Nat.add_zero]

/-- Witness of C13 at the assertions `statusIs(404)`, `statusIs(200)` on a
response with status 200. -/
theorem Assert_runs_all_then_closes_witness :
    (∀ a ∈ [statusIs 404, statusIs 200], ∀ w1, (a exampleT exampleResponse w1).1 = .ok ()) ∧
    exampleResponse.Assert exampleT [statusIs 404, statusIs 200] [] =
      (.ok exampleResponse,
        worldAfter [statusIs 404, statusIs 200] exampleT exampleResponse [] ++
          [Event.close exampleResponse.Body]) :=
  ⟨reporting_returns [statusCheck 404, statusCheck 200] exampleT exampleResponse,
    Assert_runs_all_then_closes.1 exampleResponse exampleT [statusIs 404, statusIs 200] []
      (reporting_returns [statusCheck 404, statusCheck 200] exampleT exampleResponse)⟩

/-- C14: `Response.Assert` closes the body on every exit.  For every list of
assertions and every world, the world `Assert` leaves is the world the loop
left followed by the one call of `Close`, and the result is that of the loop.
When, in the run at hand, the assertions before `a` return and `a` aborts the
test or panics, `Assert` ends with that abort or panic in the world `a` left
followed by the call of `Close`, and the assertions after `a` do not run,
whatever they are; every run of `Assert` that does not return is of this
form. -/
theorem Assert_closes_on_abort :
    (∀ (r : Response) (t : T) (asserts : List ResponseAssertion) (w : World),
      r.Assert t asserts w =
        (((assertInOrder asserts t r w).1).map (fun _ => r),
          (assertInOrder asserts t r w).2 ++ [Event.close r.Body]) ∧
      (r.Assert t asserts w).2.count (Event.close r.Body) =
        (assertInOrder asserts t r w).2.count (Event.close r.Body) + 1) ∧
    (∀ (r : Response) (t : T) (pre : List ResponseAssertion) (a : ResponseAssertion)
        (post : List ResponseAssertion) (w w1 : World),
      assertInOrder pre t r w = (.ok (), w1) →
      (a t r w1).1.isOk = false →
      r.Assert t (pre ++ a :: post) w =
        (((a t r w1).1).map (fun _ => r), (a t r w1).2 ++ [Event.close r.Body])) ∧
    (∀ (r : Response) (t : T) (asserts : List ResponseAssertion) (w : World),
      (r.Assert t asserts w).1.isOk = false →
      ∃ pre a post w1, asserts = pre ++ a :: post ∧
        assertInOrder pre t r w = (.ok (), w1) ∧ (a t r w1).1.isOk = false) ∧
    (∀ (r : Response) (t : T) (fs gs : List (T → Response → List Str)) (m : Str) (w : World),
      r.Assert t (fs.map reporting ++ aborting m :: gs.map reporting) w =
        (.fatal m, w ++ reportsOf fs t r ++ [Event.report m] ++ [Event.close r.Body]) ∧
      r.Assert t (fs.map reporting ++ panicking m :: gs.map reporting) w =
        (.panic m, w ++ reportsOf fs t r ++ [Event.close r.Body]) ∧
      (r.Assert t (fs.map reporting ++ aborting m :: gs.map reporting) w).2.count
          (Event.close r.Body) = w.count (Event.close r.Body) + 1 ∧
      (r.Assert t (fs.map reporting ++ panicking m :: gs.map reporting) w).2.count
          (Event.close r.Body) = w.count (Event.close r.Body) + 1) ∧
    (exampleResponse.Assert exampleT [abortIfFailed, aborting "boom".toList, statusIs 500] [] =
        (.fatal "boom".toList, [Event.report "boom".toList, Event.close 7]) ∧
      exampleResponse.Assert exampleT [statusIs 404, abortIfFailed, statusIs 500] [] =
        (.fatal "failed before".toList,
          [Event.report "unexpected status".toList, Event.close 7])) := by
  have key : ∀ (r : Response) (t : T) (pre : List ResponseAssertion) (a : ResponseAssertion)
      (post : List ResponseAssertion) (w w1 : World),
      assertInOrder pre t r w = (.ok (), w1) →
      (a t r w1).1.isOk = false →
      r.Assert t (pre ++ a :: post) w =
        (((a t r w1).1).map (fun _ => r), (a t r w1).2 ++ [Event.close r.Body]) := by
    intro r t pre a post w w1 hpre ha
    rw [← rangeAsserts_eq_assertInOrder] at hpre
    unfold Response.Assert
    rw [rangeAsserts_append_run pre (a :: post) t r w () w1 hpre, rangeAsserts]
    rcases hw : a t r w1 with ⟨o, w2⟩
    rw [hw] at ha
    cases o with
    | ok u => simp [Outcome.isOk] at ha
    | fatal m => rfl
    | panic m => rfl
  refine ⟨fun r t asserts w => ?_, key, fun r t asserts w h => ?_, fun r t fs gs m w => ?_,
    by decide⟩
  · rw [← rangeAsserts_eq_assertInOrder]
    refine ⟨rfl, ?_⟩
    unfold Response.Assert
    simp only [List.count_append, List.count_singleton_self]
  · have h1 : (rangeAsserts asserts t r w).1.isOk = false := by
      unfold Response.Assert at h
      simp only at h
      cases ho : (rangeAsserts asserts t r w).1 with
      | ok u => rw [ho] at h; simp [Outcome.map, Outcome.isOk] at h
      | fatal m => rfl
      | panic m => rfl
    obtain ⟨pre, a, post, w1, h2, h3, h4, _⟩ := rangeAsserts_abort_split asserts t r w h1
    rw [rangeAsserts_eq_assertInOrder] at h3
    exact ⟨pre, a, post, w1, h2, h3, h4⟩
  · have hfs : assertInOrder (fs.map reporting) t r w = (.ok (), w ++ reportsOf fs t r) := by
      rw [← rangeAsserts_eq_assertInOrder, rangeAsserts_ok _ t r (reporting_returns fs t r),
        worldAfter_reporting]
    have e1 : r.Assert t (fs.map reporting ++ aborting m :: gs.map reporting) w =
        (.fatal m, w ++ reportsOf fs t r ++ [Event.report m] ++ [Event.close r.Body]) :=
      key r t (fs.map reporting) (aborting m) (gs.map reporting) w _ hfs rfl
    have e2 : r.Assert t (fs.map reporting ++ panicking m :: gs.map reporting) w =
        (.panic m, w ++ reportsOf fs t r ++ [Event.close r.Body]) :=
      key r t (fs.map reporting) (panicking m) (gs.map reporting) w _ hfs rfl
    refine ⟨e1, e2, ?_, ?_⟩
    · rw [e1]
      have : List.count (Event.close r.Body) [Event.report m] = 0 :=
        List.count_eq_zero.2 (by simp)
      simp only [List.count_append, count_close_reportsOf, List.count_singleton_self,
        Nat.add_zero, this]
    · rw [e2]
      simp only [List.count_append, count_close_reportsOf, List.count_singleton_self,
        Nat.add_zero]

/-- Witness of C14: an assertion that depends on the world, then an assertion
that aborts the test, then `statusIs(500)`, on a response with status 200 and
from the empty world. -/
theorem Assert_closes_on_abort_witness :
    assertInOrder [abortIfFailed] exampleT exampleResponse [] = (.ok (), []) ∧
    (aborting "boom".toList exampleT exampleResponse []).1.isOk = false ∧
    exampleResponse.Assert exampleT
        ([abortIfFailed] ++ aborting "boom".toList :: [statusIs 500]) [] =
      (.fatal "boom".toList, [Event.report "boom".toList, Event.close 7]) :=
  ⟨rfl, rfl,
    Assert_closes_on_abort.2.1 exampleResponse exampleT [abortIfFailed]
      (aborting "boom".toList) [statusIs 500] [] [] rfl rfl⟩

/-! ## Lemmas on `urlJoin` and `strings.Split` -/


theorem TrimPrefix_slash (e : Str) : TrimPrefix e ['/'] = dropLeadingSlash e := by
  cases e with
  | nil => rfl
  | cons c t =>
    by_cases hc : c = '/'
    · subst hc
      simp [TrimPrefix, dropLeadingSlash]
    · have hc2 : ¬ '/' = c := fun h => hc h.symm
      simp [TrimPrefix, dropLeadingSlash, hc, hc2]

theorem TrimSuffix_slash (e : Str) : TrimSuffix e ['/'] = dropTrailingSlash e := by
  rcases List.eq_nil_or_concat e with rfl | ⟨L, b, rfl⟩
  · rfl
  · unfold TrimSuffix dropTrailingSlash
    simp only [List.concat_eq_append]
    rw [List.getLast?_concat]
    by_cases hb : b = '/'
    · subst hb
      simp
    · have h1 : ¬ ['/'] <:+ L ++ [b] := by
        rintro ⟨t, ht⟩
        have := congrArg List.getLast? ht
        simp at this
        exact hb this.symm
      simp [h1, hb]

theorem urlJoinLoop_eq (n : Nat) :
    ∀ (elems : List Str) (i : Nat) (u : Str), i + elems.length = n →
      urlJoinLoop n i elems u =
        u ++ joinWithSlash (elems.map (fun e => dropTrailingSlash (dropLeadingSlash e))) := by
  intro elems
  induction elems with
  | nil => intro i u _; simp [urlJoinLoop, joinWithSlash]
  | cons e es ih =>
    intro i u h
    rw [urlJoinLoop]
    simp only [TrimPrefix_slash, TrimSuffix_slash]
    rw [ih (i + 1) _ (by simp at h ⊢; omega)]
    cases es with
    | nil =>
      have : ¬ ((i : Int) ≠ (n : Int) - 1) := by simp at h ⊢; omega
      simp [this, joinWithSlash]
    | cons f fs =>
      have : (i : Int) ≠ (n : Int) - 1 := by simp at h ⊢; omega
      simp [this, joinWithSlash]

theorem urlJoin_eq (elems : List Str) :
    urlJoin elems =
      joinWithSlash (elems.map (fun e => dropTrailingSlash (dropLeadingSlash e))) := by
  unfold urlJoin
  rw [urlJoinLoop_eq elems.length elems 0 [] (by simp)]
  rfl


theorem Count_le_length (s : Str) (c : Char) : Count s c ≤ s.length := by
  induction s with
  | nil => simp [Count]
  | cons b t ih =>
    simp only [Count, List.length_cons]
    split <;> omega

theorem Count_eq_zero (s : Str) (c : Char) (h : Count s c = 0) : c ∉ s := by
  induction s with
  | nil => simp
  | cons b t ih =>
    by_cases hb : b = c
    · simp [Count, hb] at h
    · simp only [Count, hb, if_false] at h
      simp only [List.mem_cons, not_or]
      exact ⟨fun h => hb h.symm, ih h⟩

theorem joinWithSlash_cons (e : Str) (es : List Str) (h : es ≠ []) :
    joinWithSlash (e :: es) = e ++ '/' :: joinWithSlash es := by
  cases es with
  | nil => exact absurd rfl h
  | cons f fs => rfl

theorem splitLoop_ne_nil (n : Nat) (s : Str) : splitLoop n s ≠ [] := by
  cases n with
  | zero => simp [splitLoop]
  | succ k =>
    rw [splitLoop]
    split <;> simp

/-- The pieces of the split contain no slash, and joined by slashes they give
the string back. -/
theorem splitLoop_spec :
    ∀ (n : Nat) (s : Str), Count s '/' ≤ n →
      (∀ p ∈ splitLoop n s, '/' ∉ p) ∧ joinWithSlash (splitLoop n s) = s := by
  intro n
  induction n with
  | zero =>
    intro s h
    have hs := Count_eq_zero s '/' (Nat.le_zero.1 h)
    simp [splitLoop, joinWithSlash, hs]
  | succ k ih =>
    intro s h
    rw [splitLoop]
    cases hi : IndexByte s '/' with
    | none =>
      have hs := IndexByte_none s '/' hi
      simp [joinWithSlash, hs]
    | some m =>
      obtain ⟨h1, h2, h3⟩ := IndexByte_some s '/' m hi
      obtain ⟨h4, h5⟩ := ih (s.drop (m + 1)) (by omega)
      refine ⟨?_, ?_⟩
      · intro p hp
        rcases List.mem_cons.1 hp with rfl | hp
        · exact h2
        · exact h4 p hp
      · show joinWithSlash (List.take m s :: splitLoop k (List.drop (m + 1) s)) = s
        rw [joinWithSlash_cons _ _ (splitLoop_ne_nil _ _), h5]
        exact h1.symm

theorem Split_spec (s : Str) : (∀ p ∈ Split s, '/' ∉ p) ∧ joinWithSlash (Split s) = s := by
  unfold Split
  have h := Count_le_length s '/'
  have : (if Count s '/' + 1 > s.length + 1 then s.length + 1 else Count s '/' + 1) - 1 =
      Count s '/' := by
    split <;> omega
  simp only [this]
  exact splitLoop_spec _ s (le_refl _)

theorem strip_of_no_slash (e : Str) (h : '/' ∉ e) :
    dropTrailingSlash (dropLeadingSlash e) = e := by
  have h1 : dropLeadingSlash e = e := by
    cases e with
    | nil => rfl
    | cons c t =>
      have : c ≠ '/' := fun hc => h (by simp [hc])
      simp [dropLeadingSlash, this]
  rw [h1]
  unfold dropTrailingSlash
  have h2 : e.getLast? ≠ some '/' := fun hl => h (List.mem_of_getLast?_eq_some hl)
  simp [h2]

theorem urlJoin_Split (s : Str) : urlJoin (Split s) = s := by
  obtain ⟨h1, h2⟩ := Split_spec s
  rw [urlJoin_eq]
  have : (Split s).map (fun e => dropTrailingSlash (dropLeadingSlash e)) = Split s := by
    conv => rhs; rw [← List.map_id (Split s)]
    apply List.map_congr_left
    intro p hp
    exact strip_of_no_slash p (h1 p hp)
  rw [this, h2]


theorem joinWithSlash_head (e : Str) (es : List Str)
    (h : (joinWithSlash (e :: es)).head? = some '/') :
    e.head? = some '/' ∨ (e = [] ∧ es ≠ []) := by
  cases es with
  | nil => exact Or.inl h
  | cons f fs =>
    cases e with
    | nil => exact Or.inr ⟨rfl, by simp⟩
    | cons c t => exact Or.inl (by simpa [joinWithSlash] using h)

theorem joinWithSlash_getLast :
    ∀ (l : List Str) (x : Str), l.getLast? = some x →
      (joinWithSlash l).getLast? = some '/' →
      x.getLast? = some '/' ∨ (x = [] ∧ 2 ≤ l.length) := by
  intro l
  induction l with
  | nil => intro x h; simp at h
  | cons e es ih =>
    intro x hx h
    cases es with
    | nil =>
      simp at hx
      subst hx
      exact Or.inl h
    | cons f fs =>
      rw [List.getLast?_cons_cons] at hx
      rw [joinWithSlash_cons e (f :: fs) (by simp), List.getLast?_append] at h
      cases hj : joinWithSlash (f :: fs) with
      | nil =>
        cases fs with
        | nil =>
          simp at hx
          subst hx
          exact Or.inr ⟨by simpa [joinWithSlash] using hj, by simp⟩
        | cons g gs => simp [joinWithSlash] at hj
      | cons c t =>
        rw [hj] at h
        have h2 : (joinWithSlash (f :: fs)).getLast? = some '/' := by
          rw [hj]
          rw [List.getLast?_cons_cons] at h
          cases hl : (c :: t).getLast? with
          | none => simp at hl
          | some y =>
            rw [hl] at h
            simpa using h
        rcases ih x hx h2 with h3 | ⟨h3, h4⟩
        · exact Or.inl h3
        · exact Or.inr ⟨h3, by simp at h4 ⊢⟩

theorem dropLeadingSlash_cases (e : Str) :
    dropLeadingSlash e = e ∨ e = '/' :: dropLeadingSlash e := by
  cases e with
  | nil => exact Or.inl rfl
  | cons c t =>
    by_cases hc : c = '/'
    · exact Or.inr (by simp [dropLeadingSlash, hc])
    · exact Or.inl (by simp [dropLeadingSlash, hc])

theorem dropTrailingSlash_head (x : Str) (h : (dropTrailingSlash x).head? = some '/') :
    x.head? = some '/' := by
  unfold dropTrailingSlash at h
  split at h
  · rw [List.head?_dropLast] at h
    split at h
    · exact h
    · simp at h
  · exact h

theorem dropTrailingSlash_concat (y : Str) (b : Char) :
    dropTrailingSlash (y ++ [b]) = if b = '/' then y else y ++ [b] := by
  unfold dropTrailingSlash
  rw [List.getLast?_concat]
  by_cases hb : b = '/'
  · simp [hb]
  · simp [hb]

theorem strip_getLast (e : Str)
    (h : (dropTrailingSlash (dropLeadingSlash e)).getLast? = some '/') :
    (dropTrailingSlash e).getLast? = some '/' := by
  rcases dropLeadingSlash_cases e with h1 | h1
  · rw [h1] at h
    exact h
  · revert h h1
    generalize dropLeadingSlash e = x
    intro h h1
    rcases List.eq_nil_or_concat x with rfl | ⟨y, b, rfl⟩
    · simp [dropTrailingSlash] at h
    · simp only [List.concat_eq_append] at h h1
      rw [dropTrailingSlash_concat] at h
      by_cases hb : b = '/'
      · simp only [hb, if_true] at h
        have he : e = ('/' :: y) ++ [b] := by rw [h1]; rfl
        rw [he, dropTrailingSlash_concat]
        simp only [hb, if_true]
        cases y with
        | nil => simp at h
        | cons c t =>
          rw [List.getLast?_cons_cons]
          exact h
      · simp only [hb, if_false] at h
        rw [List.getLast?_concat] at h
        exact absurd (by simpa using h) hb

/-- The slash at an end of the result of `urlJoin` comes from the segment at
that end, or it is a separator next to a segment that is empty once stripped. -/
theorem urlJoin_edges (elems : List Str) :
    (∀ first, elems.head? = some first → (urlJoin elems).head? = some '/' →
      (TrimPrefix first ['/']).head? = some '/' ∨
        (TrimSuffix (TrimPrefix first ['/']) ['/'] = [] ∧ 2 ≤ elems.length)) ∧
    (∀ last, elems.getLast? = some last → (urlJoin elems).getLast? = some '/' →
      (TrimSuffix last ['/']).getLast? = some '/' ∨
        (TrimSuffix (TrimPrefix last ['/']) ['/'] = [] ∧ 2 ≤ elems.length)) := by
  simp only [TrimPrefix_slash, TrimSuffix_slash, urlJoin_eq]
  constructor
  · intro first hf h
    obtain ⟨es, rfl⟩ := List.head?_eq_some_iff.1 hf
    rcases joinWithSlash_head _ _ h with h1 | ⟨h1, h2⟩
    · exact Or.inl (dropTrailingSlash_head _ h1)
    · refine Or.inr ⟨h1, ?_⟩
      cases es with
      | nil => simp at h2
      | cons f fs => simp
  · intro last hl h
    have hl2 : (elems.map (fun e => dropTrailingSlash (dropLeadingSlash e))).getLast? =
        some (dropTrailingSlash (dropLeadingSlash last)) := by
      rw [List.getLast?_map, hl]
      rfl
    rcases joinWithSlash_getLast _ _ hl2 h with h1 | ⟨h1, h2⟩
    · exact Or.inl (strip_getLast _ h1)
    · exact Or.inr ⟨h1, by simpa using h2⟩

/-- The recipe of a request built by `T.Request`: `http.NewRequest` succeeded
with some `v0`, the options gave `vb`, and every invocation builds `vb`. -/
theorem Request_recipe (t : T) (method : Str) (opts : List RequestOption) (s : Store)
    (b : Request) (s1 : Store) (h : t.Request method opts s = .ok (b, s1)) :
    ∃ v0 vb, httpNewRequest method t.URL = .ok v0 ∧ applyInOrder opts v0 = .ok vb ∧
      (∀ σ, b.copy σ = .ok (σ.length, σ ++ [vb])) ∧ b.r = s.length ∧ s1 = s ++ [vb] := by
  unfold T.Request makeRequest at h
  cases hn : httpNewRequest method t.URL with
  | error e => simp [hn] at h
  | ok v0 =>
    simp only [hn, rangeOpts_fresh] at h
    cases ha : applyInOrder opts v0 with
    | ok v =>
      simp only [ha, Outcome.map, Outcome.ok.injEq, Prod.mk.injEq] at h
      obtain ⟨rfl, rfl⟩ := h
      refine ⟨v0, v, rfl, ha, fun σ => ?_, rfl, rfl⟩
      simp [hn, rangeOpts_fresh, ha, Outcome.map]
    | fatal m => simp [ha, Outcome.map] at h
    | panic m => simp [ha, Outcome.map] at h

theorem Request_of_new (t : T) (method : Str) (opts : List RequestOption) (s : Store)
    (v0 v : HttpRequest) (hn : httpNewRequest method t.URL = .ok v0)
    (ha : applyInOrder opts v0 = .ok v) :
    ∃ d, t.Request method opts s = .ok (d, s ++ [v]) ∧ d.r = s.length := by
  unfold T.Request makeRequest
  simp only [hn, rangeOpts_fresh, ha, Outcome.map]
  exact ⟨_, rfl, rfl⟩

/-! ## The claims on `urlJoin`, `Body` and cloning -/

/-- C15: `urlJoin` returns the segments, each without one leading slash and
without one trailing slash when it has them, concatenated with exactly one
slash between consecutive segments and nothing before the first or after the
last; no segments give the empty string, and `a/`, `/b`, `c/` give `a/b/c`. -/
theorem urlJoin_joins_stripped :
    (∀ elems : List Str, urlJoin elems =
      joinWithSlash (elems.map (fun e => dropTrailingSlash (dropLeadingSlash e)))) ∧
    urlJoin [] = [] ∧
    urlJoin ["a/".toList, "/b".toList, "c/".toList] = "a/b/c".toList := by
  exact ⟨urlJoin_eq, rfl, by decide⟩

/-- C16: splitting the result of `urlJoin` on slashes and joining the pieces
again with `urlJoin` gives the same string; indeed `urlJoin` of the pieces of
any string gives the string back. -/
theorem urlJoin_resplit :
    (∀ elems : List Str, urlJoin (Split (urlJoin elems)) = urlJoin elems) ∧
    (∀ s : Str, urlJoin (Split s) = s) ∧
    Split (urlJoin ["a/".toList, "/b".toList, "c/".toList]) =
      ["a".toList, "b".toList, "c".toList] := by
  exact ⟨fun elems => urlJoin_Split _, urlJoin_Split, by decide⟩

/-- C17, counterexample: `urlJoin("", "a")` is `/a`, which begins with a slash
although the first segment is empty, and `urlJoin("a", "")` is `a/`, which ends
in a slash although the last segment is empty. -/
theorem urlJoin_adds_edge_slash :
    (urlJoin [[], "a".toList] = "/a".toList ∧
      (urlJoin [[], "a".toList]).head? = some '/' ∧
      (TrimPrefix [] ['/']).head? ≠ some '/') ∧
    (urlJoin ["a".toList, []] = "a/".toList ∧
      (urlJoin ["a".toList, []]).getLast? = some '/' ∧
      (TrimSuffix [] ['/']).getLast? ≠ some '/') := by
  decide

/-- C17, amended: when the result of `urlJoin` begins with a slash, the first
segment without one leading slash begins with a slash, or the first segment is
empty once stripped and another segment follows; when the result ends in a
slash, the last segment without one trailing slash ends in a slash, or the last
segment is empty once stripped and another segment precedes it. -/
theorem urlJoin_edge_slash (elems : List Str) :
    (∀ first, elems.head? = some first → (urlJoin elems).head? = some '/' →
      (TrimPrefix first ['/']).head? = some '/' ∨
        (TrimSuffix (TrimPrefix first ['/']) ['/'] = [] ∧ 2 ≤ elems.length)) ∧
    (∀ last, elems.getLast? = some last → (urlJoin elems).getLast? = some '/' →
      (TrimSuffix last ['/']).getLast? = some '/' ∨
        (TrimSuffix (TrimPrefix last ['/']) ['/'] = [] ∧ 2 ≤ elems.length)) :=
  urlJoin_edges elems

/-- Witness of C17 (amended) at the segments `//a`, `b//`, whose join is
`/a/b/`. -/
theorem urlJoin_edge_slash_witness :
    (["//a".toList, "b//".toList].head? = some "//a".toList ∧
      (urlJoin ["//a".toList, "b//".toList]).head? = some '/' ∧
      ((TrimPrefix "//a".toList ['/']).head? = some '/' ∨
        (TrimSuffix (TrimPrefix "//a".toList ['/']) ['/'] = [] ∧
          2 ≤ ["//a".toList, "b//".toList].length))) ∧
    (["//a".toList, "b//".toList].getLast? = some "b//".toList ∧
      (urlJoin ["//a".toList, "b//".toList]).getLast? = some '/' ∧
      ((TrimSuffix "b//".toList ['/']).getLast? = some '/' ∨
        (TrimSuffix (TrimPrefix "b//".toList ['/']) ['/'] = [] ∧
          2 ≤ ["//a".toList, "b//".toList].length))) :=
  ⟨⟨by decide, by decide,
      (urlJoin_edge_slash ["//a".toList, "b//".toList]).1 "//a".toList (by decide) (by decide)⟩,
    ⟨by decide, by decide,
      (urlJoin_edge_slash ["//a".toList, "b//".toList]).2 "b//".toList (by decide) (by decide)⟩⟩

/-- C18: `Body(s)` sets the body of the request to a stream with a `Close`
method that reads from `s`.  When `s` has no `Close` method the body is the
`NopCloser` adapter around `s`, whose `Close` returns no error; when `s` has
one, the body is `s` itself, with the `Close` of `s`. -/
theorem Body_sets_closable_stream :
    (∀ (r : Reader) (req : HttpRequest),
      ∃ rc, Body r req = .ok (req.withBody rc) ∧ rc.source = r ∧ rc.data = r.data) ∧
    (∀ (data : Str) (req : HttpRequest),
      Body { data := data, closer := none } req =
        .ok (req.withBody (.nopCloser { data := data, closer := none })) ∧
      (ReadCloser.nopCloser { data := data, closer := none }).Close = none) ∧
    (∀ (data : Str) (e : Option Str) (req : HttpRequest),
      Body { data := data, closer := some e } req =
        .ok (req.withBody (.self { data := data, closer := some e })) ∧
      (ReadCloser.self { data := data, closer := some e }).Close = e) ∧
    ((Body exampleReader exampleApi).map (fun q => q.Body.map ReadCloser.Close) =
        .ok (some none) ∧
      (Body exampleFile exampleApi).map (fun q => q.Body) =
        .ok (some (ReadCloser.self exampleFile))) := by
  refine ⟨fun r req => ?_, fun data req => ⟨rfl, rfl⟩, fun data e req => ⟨rfl, rfl⟩,
    by decide⟩
  cases hr : r.closer with
  | none => exact ⟨.nopCloser r, by simp [Body, hr, HttpRequest.withBody], rfl, rfl⟩
  | some e => exact ⟨.self r, by simp [Body, hr, HttpRequest.withBody], rfl, rfl⟩

/-- C19: cloning is building with the concatenated option list.  When
`T.Request(method, opts1)` and its `Clone(opts2)` succeed, `T.Request(method,
opts1 ++ opts2)` succeeds and holds the same request as the clone; and for a
request `r` of the package, when `r.Clone(opts1)` and its `Clone(opts2)`
succeed, `r.Clone(opts1 ++ opts2)` succeeds and holds the same request as the
second clone. -/
theorem Clone_is_concatenation :
    (∀ (t : T) (method : Str) (opts1 opts2 : List RequestOption) (s : Store) (b : Request)
        (s1 : Store) (c : Request) (s2 : Store),
      t.Request method opts1 s = .ok (b, s1) → b.Clone opts2 s1 = .ok (c, s2) →
      ∀ σ, ∃ d s3 v, t.Request method (opts1 ++ opts2) σ = .ok (d, s3) ∧
        s3[d.r]? = some v ∧ s2[c.r]? = some v) ∧
    (∀ (t : T) (r : Request) (s0 : Store), Produced t r s0 →
      ∀ (opts1 opts2 : List RequestOption) (s : Store) (c1 : Request) (s1 : Store)
        (c2 : Request) (s2 : Store),
      r.Clone opts1 s = .ok (c1, s1) → c1.Clone opts2 s1 = .ok (c2, s2) →
      ∀ σ, ∃ d s3 v, r.Clone (opts1 ++ opts2) σ = .ok (d, s3) ∧
        s3[d.r]? = some v ∧ s2[c2.r]? = some v) := by
  constructor
  · intro t method opts1 opts2 s b s1 c s2 hb hc σ
    obtain ⟨v0, vb, hn, ha, hcopy, _, _⟩ := Request_recipe t method opts1 s b s1 hb
    obtain ⟨vc, hvc, hcr, rfl⟩ := Clone_ok_of_recipe b vb hcopy opts2 s1 c s2 hc
    have happ : applyInOrder (opts1 ++ opts2) v0 = .ok vc := by
      rw [applyInOrder_append, ha]
      exact hvc
    obtain ⟨d, hd, hdr⟩ := Request_of_new t method (opts1 ++ opts2) σ v0 vc hn happ
    refine ⟨d, _, vc, hd, ?_, ?_⟩
    · rw [hdr]
      exact getElem?_fresh σ vc
    · rw [hcr]
      exact getElem?_fresh s1 vc
  · intro t r s0 hr opts1 opts2 s c1 s1 c2 s2 h1 h2 σ
    obtain ⟨vr, hcopy, _, _⟩ := Produced_recipe t r s0 hr
    obtain ⟨v1, hv1, hc1r, rfl⟩ := Clone_ok_of_recipe r vr hcopy opts1 s c1 s1 h1
    obtain ⟨w1, hcopy1, _, hw1⟩ :=
      Produced_recipe t c1 _ (Produced.clone r s0 opts1 s c1 _ hr h1)
    have hw : w1 = v1 := by
      rw [hc1r, getElem?_fresh] at hw1
      exact (Option.some.inj hw1).symm
    subst hw
    obtain ⟨v2, hv2, hc2r, rfl⟩ := Clone_ok_of_recipe c1 w1 hcopy1 opts2 _ c2 s2 h2
    have happ : applyInOrder (opts1 ++ opts2) vr = .ok v2 := by
      rw [applyInOrder_append, hv1]
      exact hv2
    obtain ⟨d, hd, hdr⟩ := Clone_of_recipe_ok r vr v2 hcopy (opts1 ++ opts2) happ σ
    refine ⟨d, _, v2, hd, ?_, ?_⟩
    · rw [hdr]
      exact getElem?_fresh σ v2
    · rw [hc2r]
      exact getElem?_fresh _ v2

/-- Witness of C19: `exampleT.Get(Path("a")).Clone(Path("b"))` and
`exampleT.Get(Path("a"), Path("b"))`, both built from the empty store. -/
theorem Clone_is_concatenation_witness :
    exampleT.Request "GET".toList [Path "a".toList] [] = .ok exampleBase ∧
    exampleBase.1.Clone [Path "b".toList] exampleBase.2 = .ok exampleCloneB ∧
    pathAt exampleCloneB.2 exampleCloneB.1.r = some "a/b".toList ∧
    ∃ d s3 v, exampleT.Request "GET".toList ([Path "a".toList] ++ [Path "b".toList]) [] =
        .ok (d, s3) ∧ s3[d.r]? = some v ∧ exampleCloneB.2[exampleCloneB.1.r]? = some v :=
  ⟨rfl, rfl, by decide,
    Clone_is_concatenation.1 exampleT "GET".toList [Path "a".toList] [Path "b".toList] []
      exampleBase.1 exampleBase.2 exampleCloneB.1 exampleCloneB.2 rfl rfl []⟩

/-- C20: each built-in option changes its own field only.  `Path` with a
non-empty segment changes at most the URL path, `URLParams` at most the raw
query and `Body` at most the body; method, scheme and host are kept by all
three.  `Path(segment)` and `URLParams(v)` commute. -/
theorem options_change_own_field :
    (∀ (req : HttpRequest) (elem : Str), elem ≠ [] →
      ∃ p, Path elem req = .ok (req.withPath p) ∧
        (req.withPath p).Method = req.Method ∧
        (req.withPath p).URL.Scheme = req.URL.Scheme ∧
        (req.withPath p).URL.Host = req.URL.Host ∧
        (req.withPath p).URL.RawQuery = req.URL.RawQuery ∧
        (req.withPath p).Body = req.Body) ∧
    (∀ (req : HttpRequest) (v : Values),
      ∃ q, URLParams v req = .ok (req.withRawQuery q) ∧
        (req.withRawQuery q).Method = req.Method ∧
        (req.withRawQuery q).URL.Scheme = req.URL.Scheme ∧
        (req.withRawQuery q).URL.Host = req.URL.Host ∧
        (req.withRawQuery q).URL.Path = req.URL.Path ∧
        (req.withRawQuery q).Body = req.Body) ∧
    (∀ (req : HttpRequest) (r : Reader),
      ∃ rc, Body r req = .ok (req.withBody rc) ∧
        (req.withBody rc).Method = req.Method ∧
        (req.withBody rc).URL = req.URL) ∧
    (∀ (req : HttpRequest) (elem : Str) (v : Values),
      (Path elem req).bind (URLParams v) = (URLParams v req).bind (Path elem)) := by
  refine ⟨fun req elem he => ?_, fun req v => ⟨_, rfl, rfl, rfl, rfl, rfl, rfl⟩,
    fun req r => ?_, fun req elem v => ?_⟩
  · cases hl : elem.getLast? with
    | none => exact absurd (List.getLast?_eq_none_iff.1 hl) he
    | some last => exact ⟨_, Path_of_getLast req elem last hl, rfl, rfl, rfl, rfl, rfl⟩
  · cases hr : r.closer with
    | none => exact ⟨.nopCloser r, by simp [Body, hr, HttpRequest.withBody], rfl, rfl⟩
    | some e => exact ⟨.self r, by simp [Body, hr, HttpRequest.withBody], rfl, rfl⟩
  · cases hl : elem.getLast? with
    | none =>
      have he := List.getLast?_eq_none_iff.1 hl
      subst he
      rfl
    | some last =>
      rw [Path_of_getLast req elem last hl]
      show URLParams v _ = Path elem _
      rw [Path_of_getLast _ elem last hl]
      rfl

/-- Witness of C20 at the request `GET http://example.test/api` and the segment
`users/`. -/
theorem options_change_own_field_witness :
    "users/".toList ≠ [] ∧
    ∃ p, Path "users/".toList exampleApi = .ok (exampleApi.withPath p) ∧
      (exampleApi.withPath p).Method = exampleApi.Method ∧
      (exampleApi.withPath p).URL.Scheme = exampleApi.URL.Scheme ∧
      (exampleApi.withPath p).URL.Host = exampleApi.URL.Host ∧
      (exampleApi.withPath p).URL.RawQuery = exampleApi.URL.RawQuery ∧
      (exampleApi.withPath p).Body = exampleApi.Body :=
  ⟨by decide, options_change_own_field.1 exampleApi "users/".toList (by decide)⟩

end Hat
